import Mathlib

/-!
Verification of the brick tiling module (`desiutil/brick.py`).

The Python module builds, for a given `bricksize` (degrees), a tiling of the
sphere into rows of constant declination, each row split into a number of
right-ascension columns, and serves per-coordinate lookups (name, id,
quadrant, area, vertices, center).  We embed the construction over `ℚ`
(idealizing IEEE doubles as exact rationals) and `ℝ` (for the `cos`/`sin`
calls), and numpy arrays as Lean lists.
-/

namespace Brick

/-- numpy `.astype(int)` on a float array truncates toward zero
(`(-0.7).astype(int) = 0`, `(0.7).astype(int) = 0`). -/
def truncQ (q : ℚ) : ℤ := if 0 ≤ q then ⌊q⌋ else -⌊-q⌋

/-- Python / numpy `ra % 360`: the remainder with the sign of the (positive)
modulus, i.e. `ra - 360 * ⌊ra / 360⌋`. -/
def raMod (ra : ℚ) : ℚ := ra - 360 * ⌊ra / 360⌋

/-- Rounding to an integer as Python's `"{:0w.0f}".format` does: round to
nearest, ties to even.  (On the idealized rational values used by the grid
the tie case does not arise for the facts proved below.) -/
def pyRound (q : ℚ) : ℤ :=
  if q - ⌊q⌋ < 1/2 then ⌊q⌋
  else if 1/2 < q - ⌊q⌋ then ⌊q⌋ + 1
  else if ⌊q⌋ % 2 = 0 then ⌊q⌋ else ⌊q⌋ + 1

/-! ### Decimal rendering

Python's `"{:0w.0f}".format(v)` renders `round(v)` in decimal, left-padded
with zeros to width `w`.  All values formatted by the grid are nonnegative
and below `10^w` (proved where used), so the rendering is exactly the `w`
low decimal digits, most significant first. -/

/-- The ASCII digit character of `n % 10`. -/
def digitChar (n : ℕ) : Char := Char.ofNat (48 + n % 10)

/-- The `w` low decimal digits of `n`, most significant first (equivalently:
the decimal rendering of `n` zero-padded to width `w`, when `n < 10^w`). -/
def padDigits : ℕ → ℕ → List Char
  | 0, _ => []
  | w+1, n => padDigits w (n / 10) ++ [digitChar (n % 10)]

/-- Read a digit string back as a number (inverse of `padDigits`). -/
def decodeDigits (l : List Char) : ℕ := l.foldl (fun a c => 10 * a + (c.toNat - 48)) 0

/-! ### Grid construction (`Bricks.__init__`)

`numpy` arrays are modelled as an index function together with a length;
`np.arange(start, stop, step)` (for `step > 0`) has `⌈(stop - start)/step⌉`
entries, the `i`-th being `start + i*step`.

The per-row column counts involve `np.cos`, so the raw count is a real-number
ceiling (`ncolOf`).  All other construction data are rational functions of
the brick size `b` and of a column-count function `ncol : ℕ → ℕ`, which the
lookup definitions take as a parameter and the claims instantiate with
`ncolOf b`. -/

/-- `len(np.arange(-90.0, 90.0 + bricksize/2, bricksize))`: the number of
declination rows. -/
def nrowQ (b : ℚ) : ℕ := (⌈((90 + b / 2) - (-90)) / b⌉).toNat

/-- `center_dec[i]`, the `i`-th entry of `np.arange(-90.0, 90.0 + b/2, b)`. -/
def centerDec (b : ℚ) (i : ℕ) : ℚ := -90 + i * b

/-- `edges_dec[i]`: `np.arange(-90 - b/2, 90 + b, b)` (which has `nrowQ b + 1`
entries, see `nrowQ_add_one`), with the first entry forced to `-90` and the
last to `90`. -/
def edgesDec (b : ℚ) (i : ℕ) : ℚ :=
  if i = 0 then -90
  else if i = nrowQ b then 90
  else -90 - b / 2 + i * b

/-- `declo = np.abs(center_dec[i]) - bricksize/2`, the declination at the
row edge nearer the pole. -/
def declo (b : ℚ) (i : ℕ) : ℚ := |centerDec b i| - b / 2

/-- `ncol_per_row[i]`: for each row, `int(np.ceil(n/2)*2)` columns where
`n = 360/bricksize * np.cos(declo*pi/180)`, and the two polar rows are then
forced to a single column. -/
noncomputable def ncolOf (b : ℚ) (i : ℕ) : ℕ :=
  if i = 0 ∨ i = nrowQ b - 1 then 1
  else (2 * ⌈360 / (b : ℝ) * Real.cos ((declo b i : ℝ) * Real.pi / 180) / 2⌉).toNat

/-- `edges_ra[i][j]`: the `j`-th entry of `np.linspace(0, 360, n+1)` where
`n = ncol_per_row[i]`.  (The polar override `edges_ra = [0, 360]` coincides
with `np.linspace(0, 360, 2)`, so no separate case is needed.) -/
def edgesRa (n : ℕ) (j : ℕ) : ℚ := 360 * j / n

/-- `center_ra[i][j] = 0.5*(edges[j] + edges[j+1])`.  (The polar override
`center_ra = [180]` coincides with the `n = 1` case.) -/
def centerRa (n : ℕ) (j : ℕ) : ℚ := (edgesRa n j + edgesRa n (j + 1)) / 2

/-- The sign character of a row's name: `'p' if center_dec[i] >= 0 else 'm'`. -/
def pmChar (b : ℚ) (i : ℕ) : Char := if 0 ≤ centerDec b i then 'p' else 'm'

/-- `"{0:06.0f}".format(np.absolute(center_dec[i])*10000)` as a char list. -/
def decDigits (b : ℚ) (i : ℕ) : List Char :=
  padDigits 6 (pyRound (|centerDec b i| * 10000)).toNat

/-- `"{0:07.0f}".format(center_ra[i][j]*10000)` as a char list. -/
def raDigits (n j : ℕ) : List Char := padDigits 7 (pyRound (centerRa n j * 10000)).toNat

/-- `brickname[i][j] = ra[0:4] + pm + dec[0:3]`. -/
def nameAt (b : ℚ) (ncol : ℕ → ℕ) (i j : ℕ) : String :=
  ⟨(raDigits (ncol i) j).take 4 ++ [pmChar b i] ++ (decDigits b i).take 3⟩

/-- The row `i` of the `brickname` list-of-lists. -/
def nameRow (b : ℚ) (ncol : ℕ → ℕ) (i : ℕ) : List String :=
  (List.range (ncol i)).map (nameAt b ncol i)

/-- `decfac = np.diff(np.degrees(np.sin(np.radians(edges_dec[i:i+2]))))`. -/
noncomputable def decFac (b : ℚ) (i : ℕ) : ℝ :=
  (Real.sin ((edgesDec b (i + 1) : ℝ) * Real.pi / 180) -
    Real.sin ((edgesDec b i : ℝ) * Real.pi / 180)) * 180 / Real.pi

/-- `rafac = np.diff(edges_ra[i])`, entry `j`. -/
def raFac (n : ℕ) (j : ℕ) : ℚ := edgesRa n (j + 1) - edgesRa n j

/-- `brickarea[i][j] = rafac[j] * decfac`. -/
noncomputable def areaAt (b : ℚ) (ncol : ℕ → ℕ) (i j : ℕ) : ℝ :=
  (raFac (ncol i) j : ℝ) * decFac b i

/-- The row `i` of the `brickarea` list-of-lists. -/
noncomputable def areaRow (b : ℚ) (ncol : ℕ → ℕ) (i : ℕ) : List ℝ :=
  (List.range (ncol i)).map (areaAt b ncol i)

/-- The row `i` of the `edges_ra` list-of-lists. -/
def edgesRaRow (ncol : ℕ → ℕ) (i : ℕ) : List ℚ :=
  (List.range (ncol i + 1)).map (edgesRa (ncol i))

/-- The `ncol_per_row` array as a list. -/
noncomputable def ncolList (b : ℚ) : List ℕ := (List.range (nrowQ b)).map (ncolOf b)

/-! ### Indexing

Python/numpy integer indexing: index `i` with `0 ≤ i < len` reads entry `i`;
a negative `i` with `-len ≤ i` wraps around to entry `len + i`; anything
else raises `IndexError` (modelled as `none`). -/

/-- Python indexing of an array modelled as length `len` + entry function. -/
def npGetF {α : Type _} (len : ℕ) (f : ℕ → α) (i : ℤ) : Option α :=
  if 0 ≤ i then (if i < (len : ℤ) then some (f i.toNat) else none)
  else if 0 ≤ (len : ℤ) + i then some (f ((len : ℤ) + i).toNat) else none

/-- Python indexing of a list. -/
def npGetL {α : Type _} (l : List α) (i : ℤ) : Option α :=
  if 0 ≤ i then l.get? i.toNat
  else if 0 ≤ (l.length : ℤ) + i then l.get? ((l.length : ℤ) + i).toNat else none

/-! ### Forward lookup (`Bricks._row_col` and the per-point query values)

Each query method runs `_array_radec` (RA reduced mod 360, both coordinates
promoted to arrays), computes `_row_col`, and gathers from per-row tables.
The definitions below give the per-point semantics; the vectorized array
pipelines follow afterwards. -/

/-- `row = ((dec + 90.0 + bricksize/2)/bricksize).astype(int)`. -/
def rowOf (b : ℚ) (dec : ℚ) : ℤ := truncQ ((dec + 90 + b / 2) / b)

/-- `(ra/360.0 * ncol_per_row[row]).astype(int)`, for an RA already reduced
mod 360 and given the row's column count `n`. -/
def colOf (n : ℕ) (ra : ℚ) : ℤ := truncQ (ra / 360 * n)

/-- `_row_col` at one point: the row index, and the column computed from the
row's entry of `ncol_per_row` (an `IndexError` on that array is `none`). -/
def rowcolPt (b : ℚ) (ncol : ℕ → ℕ) (ra dec : ℚ) : Option (ℤ × ℤ) :=
  (npGetF (nrowQ b) ncol (rowOf b dec)).map fun n =>
    (rowOf b dec, colOf n (raMod ra))

/-- `Bricks.brickq` at one point: `(icol % 2) + (irow % 2)*2`, overridden to
`1` where `irow == 0`. -/
def brickqPt (b : ℚ) (ncol : ℕ → ℕ) (ra dec : ℚ) : Option ℤ :=
  (rowcolPt b ncol ra dec).map fun rc =>
    if rc.1 = 0 then 1 else rc.2 % 2 + rc.1 % 2 * 2

/-- `np.cumsum(np.append(0, ncol_per_row))`: the running total of
columns, `[0, n₀, n₀+n₁, ...]` (length `nrowQ b + 1`). -/
noncomputable def ncolsumList (b : ℚ) : List ℕ :=
  List.scanl (· + ·) 0 (ncolList b)

/-- `Bricks.brickid` at one point: `ncolsum[irow] + icol + 1`. -/
noncomputable def brickidPt (b : ℚ) (ra dec : ℚ) : Option ℤ :=
  (rowcolPt b (ncolOf b) ra dec).bind fun rc =>
    (npGetL (ncolsumList b) rc.1).map fun (s : ℕ) => (s : ℤ) + rc.2 + 1

/-- `Bricks.brickname` at one point: `_brickname[irow][icol]`. -/
def bricknamePt (b : ℚ) (ncol : ℕ → ℕ) (ra dec : ℚ) : Option String :=
  (rowcolPt b ncol ra dec).bind fun rc =>
    (npGetF (nrowQ b) (nameRow b ncol) rc.1).bind fun row => npGetL row rc.2

/-- `Bricks.brickarea` at one point: `_brickarea[irow][icol]`.  (The float32
cast of the gather buffer is idealized away.) -/
noncomputable def brickareaPt (b : ℚ) (ncol : ℕ → ℕ) (ra dec : ℚ) : Option ℝ :=
  (rowcolPt b ncol ra dec).bind fun rc =>
    (npGetF (nrowQ b) (areaRow b ncol) rc.1).bind fun row => npGetL row rc.2

/-- `Bricks.brickvertices` at one point: `ramin, ramax = edges_ra[irow][icol:icol+2]`,
`decmin, decmax = edges_dec[irow], edges_dec[irow+1]`, returned
counter-clockwise from `(ramin, decmin)`. -/
def brickverticesPt (b : ℚ) (ncol : ℕ → ℕ) (ra dec : ℚ) : Option (List (ℚ × ℚ)) :=
  (rowcolPt b ncol ra dec).bind fun rc =>
    (npGetF (nrowQ b) (edgesRaRow ncol) rc.1).bind fun eras =>
    (npGetL eras rc.2).bind fun ramin =>
    (npGetL eras (rc.2 + 1)).bind fun ramax =>
    (npGetF (nrowQ b + 1) (edgesDec b) rc.1).bind fun decmin =>
    (npGetF (nrowQ b + 1) (edgesDec b) (rc.1 + 1)).map fun decmax =>
    [(ramin, decmin), (ramax, decmin), (ramax, decmax), (ramin, decmax)]

/-- `Bricks.brick_radec` at one point: `(center_ra[irow][icol], center_dec[irow])`. -/
def brickradecPt (b : ℚ) (ncol : ℕ → ℕ) (ra dec : ℚ) : Option (ℚ × ℚ) :=
  (rowcolPt b ncol ra dec).bind fun rc =>
    (npGetF (nrowQ b) (fun i => (List.range (ncol i)).map (centerRa (ncol i))) rc.1).bind
      fun crow =>
    (npGetL crow rc.2).bind fun cra =>
    (npGetF (nrowQ b) (centerDec b) rc.1).map fun cdec => (cra, cdec)

/-- `BRICKQ` as written by `Bricks.to_table`: `1` for row `0`, otherwise
`(col % 2) + (row % 2)*2`. -/
def tableQ (row col : ℕ) : ℕ :=
  if row = 0 then 1 else col % 2 + row % 2 * 2

/-! ### Vectorized pipelines and the scalar/array calling convention

Every query method accepts either a scalar or an array per coordinate; it
promotes both with `np.atleast_1d`, computes elementwise (with numpy 1-D
broadcasting between a length-1 and a length-`n` array), and finally returns
`result[0]` when `np.isscalar(ra)` was true, the whole array otherwise. -/

/-- A scalar-or-array coordinate argument. -/
abbrev NPIn := ℚ ⊕ List ℚ

/-- `np.atleast_1d`. -/
def atleast1d : NPIn → List ℚ
  | Sum.inl x => [x]
  | Sum.inr xs => xs

/-- `np.isscalar`. -/
def isScalar : NPIn → Bool
  | Sum.inl _ => true
  | Sum.inr _ => false

/-- numpy 1-D broadcasting of a binary operation: equal lengths combine
elementwise, a length-1 operand is broadcast, anything else is a shape
error. -/
def bcZipWith {α β γ : Type _} (f : α → β → γ) (xs : List α) (ys : List β) :
    Option (List γ) :=
  if xs.length = ys.length then some (List.zipWith f xs ys)
  else
    match xs, ys with
    | [a], ys => some (ys.map (f a))
    | xs, [c] => some (xs.map (fun a => f a c))
    | _, _ => none

/-- `_array_radec`: RA entries reduced mod 360 (`dec` is passed through). -/
def araOf (ra : NPIn) : List ℚ := (atleast1d ra).map raMod

/-- Vectorized `_row_col`: the row array, and the column array obtained by
broadcasting `ara/360` against the gathered `ncol_per_row[row]` (a fancy
index, which raises on any out-of-range row). -/
def rowColArr (b : ℚ) (ncol : ℕ → ℕ) (ara adec : List ℚ) :
    Option (List ℤ × List ℤ) :=
  let rows := adec.map (rowOf b)
  (rows.mapM (npGetF (nrowQ b) ncol)).bind fun ns =>
    (bcZipWith (fun ra n => colOf n ra) ara ns).map fun cols => (rows, cols)

/-- Vectorized `brickq` (the mask assignment `brickq[irow == 0] = 1` acts
elementwise). -/
def brickqArr (b : ℚ) (ncol : ℕ → ℕ) (ara adec : List ℚ) : Option (List ℤ) :=
  (rowColArr b ncol ara adec).bind fun rc =>
    bcZipWith (fun (c r : ℤ) => if r = 0 then 1 else c % 2 + r % 2 * 2) rc.2 rc.1

/-- Vectorized `brickid`: `ncolsum[irow] + icol + 1`. -/
noncomputable def brickidArr (b : ℚ) (ara adec : List ℚ) : Option (List ℤ) :=
  (rowColArr b (ncolOf b) ara adec).bind fun rc =>
    (rc.1.mapM (npGetL (ncolsumList b))).bind fun sums =>
    bcZipWith (fun (s : ℕ) (c : ℤ) => (s : ℤ) + c + 1) sums rc.2

/-- Vectorized `brickname`: gather `_brickname[row][col]` over the located
positions into a buffer of length `len(ara)` (the grouped assignment over
`set(irow)` writes each position exactly once; a buffer/positions length
mismatch is a shape error). -/
def bricknameArr (b : ℚ) (ncol : ℕ → ℕ) (ara adec : List ℚ) :
    Option (List String) :=
  (rowColArr b ncol ara adec).bind fun rc =>
    ((rc.1.zip rc.2).mapM fun p =>
      (npGetF (nrowQ b) (nameRow b ncol) p.1).bind fun row => npGetL row p.2).bind
    fun names => if names.length = ara.length then some names else none

/-- Vectorized `brickarea`, same gather as `brickname`. -/
noncomputable def brickareaArr (b : ℚ) (ncol : ℕ → ℕ) (ara adec : List ℚ) :
    Option (List ℝ) :=
  (rowColArr b ncol ara adec).bind fun rc =>
    ((rc.1.zip rc.2).mapM fun p =>
      (npGetF (nrowQ b) (areaRow b ncol) p.1).bind fun row => npGetL row p.2).bind
    fun areas => if areas.length = ara.length then some areas else none

/-- Vectorized `brickvertices`: per located position, the RA edge pair
`edges_ra[row][col:col+2]` and the Dec edge pair
`(edges_dec[row], edges_dec[row+1])`, assembled counter-clockwise. -/
def brickverticesArr (b : ℚ) (ncol : ℕ → ℕ) (ara adec : List ℚ) :
    Option (List (List (ℚ × ℚ))) :=
  (rowColArr b ncol ara adec).bind fun rc =>
    (rc.1.zip rc.2).mapM fun p =>
      (npGetF (nrowQ b) (edgesRaRow ncol) p.1).bind fun eras =>
      (npGetL eras p.2).bind fun ramin =>
      (npGetL eras (p.2 + 1)).bind fun ramax =>
      (npGetF (nrowQ b + 1) (edgesDec b) p.1).bind fun decmin =>
      (npGetF (nrowQ b + 1) (edgesDec b) (p.1 + 1)).map fun decmax =>
      [(ramin, decmin), (ramax, decmin), (ramax, decmax), (ramin, decmax)]

/-- Vectorized `brick_radec`: the pair of arrays
`([center_ra[i][j] for i,j in zip(irow,icol)], center_dec[irow])`. -/
def brickradecArr (b : ℚ) (ncol : ℕ → ℕ) (ara adec : List ℚ) :
    Option (List ℚ × List ℚ) :=
  (rowColArr b ncol ara adec).bind fun rc =>
    ((rc.1.zip rc.2).mapM fun p =>
      (npGetF (nrowQ b) (fun i => (List.range (ncol i)).map (centerRa (ncol i))) p.1).bind
        fun crow => npGetL crow p.2).bind fun xra =>
    (rc.1.mapM (npGetF (nrowQ b) (centerDec b))).map fun xdec => (xra, xdec)

/-- Return `result[0]` if `np.isscalar(ra)`, the array otherwise. -/
def scalarize {α : Type _} (ra : NPIn) (res : List α) : Option (α ⊕ List α) :=
  if isScalar ra then (res.get? 0).map Sum.inl else some (Sum.inr res)

/-- `Bricks.brickq` with the scalar/array calling convention. -/
def brickqCall (b : ℚ) (ncol : ℕ → ℕ) (ra dec : NPIn) : Option (ℤ ⊕ List ℤ) :=
  (brickqArr b ncol (araOf ra) (atleast1d dec)).bind (scalarize ra)

/-- `Bricks.brickid` with the scalar/array calling convention. -/
noncomputable def brickidCall (b : ℚ) (ra dec : NPIn) : Option (ℤ ⊕ List ℤ) :=
  (brickidArr b (araOf ra) (atleast1d dec)).bind (scalarize ra)

/-- `Bricks.brickname` with the scalar/array calling convention. -/
def bricknameCall (b : ℚ) (ncol : ℕ → ℕ) (ra dec : NPIn) :
    Option (String ⊕ List String) :=
  (bricknameArr b ncol (araOf ra) (atleast1d dec)).bind (scalarize ra)

/-- `Bricks.brickarea` with the scalar/array calling convention. -/
noncomputable def brickareaCall (b : ℚ) (ncol : ℕ → ℕ) (ra dec : NPIn) :
    Option (ℝ ⊕ List ℝ) :=
  (brickareaArr b ncol (araOf ra) (atleast1d dec)).bind (scalarize ra)

/-- `Bricks.brickvertices` with the scalar/array calling convention
(`vertices[0]` for a scalar `ra`). -/
def brickverticesCall (b : ℚ) (ncol : ℕ → ℕ) (ra dec : NPIn) :
    Option (List (ℚ × ℚ) ⊕ List (List (ℚ × ℚ))) :=
  (brickverticesArr b ncol (araOf ra) (atleast1d dec)).bind (scalarize ra)

/-- `Bricks.brick_radec` with the calling convention of the source.  Unlike
the five other queries, `brick_radec` never extracts element 0: its scalar
branch computes `_center_ra[irow][icol]` with the shape-`(1,)` index arrays
and `_center_dec[irow]` by fancy indexing — the same length-1 gathers the
array branch performs — so both branches return a pair of arrays, and the
two branches coincide with the vectorized gather on the length-1 inputs. -/
def brickradecCall (b : ℚ) (ncol : ℕ → ℕ) (ra dec : NPIn) :
    Option (List ℚ × List ℚ) :=
  brickradecArr b ncol (araOf ra) (atleast1d dec)

/-! ### Per-point result values

The value each query produces for one coordinate pair located in a valid
row; the batch theorems show every calling convention returns these. -/

/-- The column of the containing brick (`colV` applies the RA reduction and
reads the located row's column count). -/
def colV (b : ℚ) (ncol : ℕ → ℕ) (ra dec : ℚ) : ℤ :=
  colOf (ncol (rowOf b dec).toNat) (raMod ra)

/-- The BRICKQ value of the containing brick. -/
def qVal (b : ℚ) (ncol : ℕ → ℕ) (ra dec : ℚ) : ℤ :=
  if rowOf b dec = 0 then 1 else colV b ncol ra dec % 2 + rowOf b dec % 2 * 2

/-- The BRICKID value of the containing brick: the total column count of all
earlier rows, plus the column, plus one. -/
noncomputable def idVal (b : ℚ) (ra dec : ℚ) : ℤ :=
  ((((List.range (rowOf b dec).toNat).map (ncolOf b)).sum : ℕ) : ℤ) +
    colV b (ncolOf b) ra dec + 1

/-- The name of the containing brick. -/
def nameVal (b : ℚ) (ncol : ℕ → ℕ) (ra dec : ℚ) : String :=
  nameAt b ncol (rowOf b dec).toNat (colV b ncol ra dec).toNat

/-- The area of the containing brick. -/
noncomputable def areaVal (b : ℚ) (ncol : ℕ → ℕ) (ra dec : ℚ) : ℝ :=
  areaAt b ncol (rowOf b dec).toNat (colV b ncol ra dec).toNat

/-- The four vertices of the containing brick, counter-clockwise from the
(RA min, Dec min) corner. -/
def verticesVal (b : ℚ) (ncol : ℕ → ℕ) (ra dec : ℚ) : List (ℚ × ℚ) :=
  [(edgesRa (ncol (rowOf b dec).toNat) (colV b ncol ra dec).toNat,
    edgesDec b (rowOf b dec).toNat),
   (edgesRa (ncol (rowOf b dec).toNat) ((colV b ncol ra dec).toNat + 1),
    edgesDec b (rowOf b dec).toNat),
   (edgesRa (ncol (rowOf b dec).toNat) ((colV b ncol ra dec).toNat + 1),
    edgesDec b ((rowOf b dec).toNat + 1)),
   (edgesRa (ncol (rowOf b dec).toNat) (colV b ncol ra dec).toNat,
    edgesDec b ((rowOf b dec).toNat + 1))]

/-- The center of the containing brick. -/
def radecVal (b : ℚ) (ncol : ℕ → ℕ) (ra dec : ℚ) : ℚ × ℚ :=
  (centerRa (ncol (rowOf b dec).toNat) (colV b ncol ra dec).toNat,
   centerDec b (rowOf b dec).toNat)

/-- The located row is a genuine (non-wrapped) index of the row tables. -/
def ValidRow (b dec : ℚ) : Prop :=
  0 ≤ rowOf b dec ∧ rowOf b dec < (nrowQ b : ℤ)

/-! ### Name codes and the specification's encoder -/

/-- The number encoded by the four leading characters of a brick name: the
rounded `center_ra * 10000` with its three low digits cut off. -/
def raCode (n j : ℕ) : ℕ := (pyRound (centerRa n j * 10000)).toNat / 1000

/-- The number encoded by the three trailing characters of a brick name. -/
def decCode (b : ℚ) (i : ℕ) : ℕ := (pyRound (|centerDec b i| * 10000)).toNat / 1000

/-- The name encoding as the specification words it: the first 4 characters
of the 7-digit zero-padded integer rendering of `RA_center * 10000`, a sign
character (`p` for Dec ≥ 0, `m` otherwise), and the first 3 characters of
the 6-digit zero-padded rendering of `|Dec_center| * 10000` — a pure
function of the two centers. -/
def specEncode (raC decC : ℚ) : String :=
  ⟨(padDigits 7 (pyRound (raC * 10000)).toNat).take 4 ++
    [if 0 ≤ decC then 'p' else 'm'] ++
    (padDigits 6 (pyRound (|decC| * 10000)).toNat).take 3⟩

/-! ### Facts about rounding, truncation and digit strings -/

theorem truncQ_of_nonneg {q : ℚ} (h : 0 ≤ q) : truncQ q = ⌊q⌋ := if_pos h

theorem pyRound_le (q : ℚ) : (pyRound q : ℚ) ≤ q + 1/2 := by
  unfold pyRound
  have h0 : (⌊q⌋ : ℚ) ≤ q := Int.floor_le q
  split_ifs <;> push_cast <;> linarith

theorem le_pyRound (q : ℚ) : q - 1/2 ≤ (pyRound q : ℚ) := by
  unfold pyRound
  have h1 : q < (⌊q⌋ : ℚ) + 1 := Int.lt_floor_add_one q
  split_ifs with h h' h'' <;> push_cast <;> linarith

theorem pyRound_intCast (n : ℤ) : pyRound (n : ℚ) = n := by
  unfold pyRound
  rw [Int.floor_intCast]
  norm_num

theorem pyRound_nonneg {q : ℚ} (h : 0 ≤ q) : 0 ≤ pyRound q := by
  have h1 := le_pyRound q
  have h2 : (-1 : ℤ) < pyRound q := by
    exact_mod_cast (show (-1 : ℚ) < (pyRound q : ℚ) by linarith)
  omega

theorem raMod_nonneg (ra : ℚ) : 0 ≤ raMod ra := by
  unfold raMod
  have := Int.floor_le (ra / 360)
  nlinarith [this]

theorem raMod_lt (ra : ℚ) : raMod ra < 360 := by
  unfold raMod
  have := Int.lt_floor_add_one (ra / 360)
  nlinarith [this]

@[simp] theorem length_padDigits (w n : ℕ) : (padDigits w n).length = w := by
  induction w generalizing n with
  | zero => rfl
  | succ w ih => simp [padDigits, ih]

theorem digitChar_toNat (n : ℕ) : (digitChar n).toNat = 48 + n % 10 := by
  have h : n % 10 < 10 := Nat.mod_lt _ (by norm_num)
  unfold digitChar
  set m := n % 10 with hm
  interval_cases m <;> decide

theorem decodeDigits_append_digit (l : List Char) (n : ℕ) :
    decodeDigits (l ++ [digitChar n]) = 10 * decodeDigits l + n % 10 := by
  unfold decodeDigits
  rw [List.foldl_append]
  simp [digitChar_toNat]

theorem mod_ten_pow_succ (w n : ℕ) : n % 10 ^ (w + 1) = 10 * (n / 10 % 10 ^ w) + n % 10 := by
  conv_lhs => rw [← Nat.div_add_mod n 10]
  rw [pow_succ, Nat.mul_comm (10 ^ w) 10]
  rw [Nat.add_mod, Nat.mul_mod_mul_left]
  have h1 : n % 10 % (10 * 10 ^ w) = n % 10 :=
    Nat.mod_eq_of_lt (lt_of_lt_of_le (Nat.mod_lt _ (by norm_num))
      (Nat.le_mul_of_pos_right 10 (Nat.pos_pow_of_pos w (by norm_num))))
  rw [h1]
  exact Nat.mod_eq_of_lt (by
    have h2 : n / 10 % 10 ^ w < 10 ^ w := Nat.mod_lt _ (Nat.pos_pow_of_pos w (by norm_num))
    have h3 : n % 10 < 10 := Nat.mod_lt _ (by norm_num)
    calc 10 * (n / 10 % 10 ^ w) + n % 10 < 10 * (n / 10 % 10 ^ w) + 10 := by omega
      _ ≤ 10 * 10 ^ w := by omega)

theorem decodeDigits_padDigits (w n : ℕ) : decodeDigits (padDigits w n) = n % 10 ^ w := by
  induction w generalizing n with
  | zero => simp [padDigits, decodeDigits, Nat.mod_one]
  | succ w ih =>
    rw [padDigits, decodeDigits_append_digit, ih, mod_ten_pow_succ]
    omega

theorem padDigits_inj {w m n : ℕ} (hm : m < 10 ^ w) (hn : n < 10 ^ w)
    (h : padDigits w m = padDigits w n) : m = n := by
  have := congrArg decodeDigits h
  rwa [decodeDigits_padDigits, decodeDigits_padDigits, Nat.mod_eq_of_lt hm,
    Nat.mod_eq_of_lt hn] at this

/-- Splitting off the low `v` digits: the `u + v` low digits of `n` are the
`u` low digits of `n / 10^v` followed by the `v` low digits of `n`. -/
theorem padDigits_add (u v n : ℕ) :
    padDigits (u + v) n = padDigits u (n / 10 ^ v) ++ padDigits v (n % 10 ^ v) := by
  induction v generalizing n with
  | zero => simp [padDigits]
  | succ v ih =>
    have h1 : u + (v + 1) = (u + v) + 1 := by omega
    rw [h1, padDigits, ih]
    have h2 : n / 10 / 10 ^ v = n / 10 ^ (v + 1) := by
      rw [Nat.div_div_eq_div_mul, ← pow_succ']
    have h3 : n / 10 % 10 ^ v = n % 10 ^ (v + 1) / 10 := by
      rw [mod_ten_pow_succ]
      omega
    have h4 : n % 10 = n % 10 ^ (v + 1) % 10 := by
      rw [mod_ten_pow_succ]
      omega
    rw [h2, h3, h4, List.append_assoc]
    rfl

theorem npGetL_eq_get? {α : Type _} (l : List α) (i : ℤ) (h0 : 0 ≤ i) :
    npGetL l i = l.get? i.toNat := if_pos h0

theorem npGetF_eq_some {α : Type _} (len : ℕ) (f : ℕ → α) (i : ℤ)
    (h0 : 0 ≤ i) (h1 : i < (len : ℤ)) : npGetF len f i = some (f i.toNat) := by
  unfold npGetF
  rw [if_pos h0, if_pos h1]

/-! ### Basic bounds for the located row and column -/

theorem rowOf_nonneg {b dec : ℚ} (hb : 0 < b) (hd : -90 ≤ dec) : 0 ≤ rowOf b dec := by
  have hq : 0 ≤ (dec + 90 + b / 2) / b := div_nonneg (by linarith) hb.le
  rw [rowOf, truncQ_of_nonneg hq]
  exact Int.floor_nonneg.mpr hq

theorem nrowQ_cast {b : ℚ} (hb : 0 < b) :
    ((nrowQ b : ℕ) : ℤ) = ⌈((90 + b / 2) - (-90)) / b⌉ := by
  rw [nrowQ]
  exact Int.toNat_of_nonneg (Int.ceil_nonneg (div_nonneg (by linarith) hb.le))

theorem nrowQ_pos {b : ℚ} (hb : 0 < b) : 1 ≤ nrowQ b := by
  have h : (0 : ℤ) < ⌈((90 + b / 2) - (-90)) / b⌉ :=
    Int.ceil_pos.mpr (div_pos (by linarith) hb)
  have := nrowQ_cast hb
  omega

theorem rowOf_lt_nrowQ {b dec : ℚ} (hb : 0 < b) (hd : dec ≤ 90)
    (hfr : Int.fract (((90 + b / 2) - (-90)) / b) ≠ 0) :
    rowOf b dec < (nrowQ b : ℤ) := by
  set x90 : ℚ := ((90 + b / 2) - (-90)) / b with hx90
  have hx90pos : 0 < x90 := by rw [hx90]; exact div_pos (by linarith) hb
  rw [nrowQ_cast hb, ← hx90]
  have hfl : (⌊x90⌋ : ℚ) ≠ x90 := by
    intro h
    exact hfr (by rw [Int.fract, h, sub_self])
  have hstrict : (⌊x90⌋ : ℚ) < x90 := lt_of_le_of_ne (Int.floor_le _) hfl
  have hceil : ⌊x90⌋ < ⌈x90⌉ := by
    have h1 : x90 ≤ (⌈x90⌉ : ℚ) := Int.le_ceil _
    exact_mod_cast lt_of_lt_of_le hstrict h1
  rw [rowOf, truncQ]
  split_ifs with h
  · have hmono : (dec + 90 + b / 2) / b ≤ x90 := by
      rw [hx90]
      exact (div_le_div_right hb).mpr (by linarith)
    calc ⌊(dec + 90 + b / 2) / b⌋ ≤ ⌊x90⌋ := Int.floor_le_floor hmono
      _ < ⌈x90⌉ := hceil
  · push_neg at h
    have h1 : 0 ≤ ⌊-((dec + 90 + b / 2) / b)⌋ := Int.floor_nonneg.mpr (by linarith)
    have h2 : 0 < ⌈x90⌉ := Int.ceil_pos.mpr hx90pos
    omega

theorem colOf_nonneg {n : ℕ} {x : ℚ} (hx : 0 ≤ x) : 0 ≤ colOf n x := by
  have hq : 0 ≤ x / 360 * n := by positivity
  rw [colOf, truncQ_of_nonneg hq]
  exact Int.floor_nonneg.mpr hq

theorem colOf_lt {n : ℕ} {x : ℚ} (hx0 : 0 ≤ x) (hx : x < 360) (hn : 1 ≤ n) :
    colOf n x < (n : ℤ) := by
  have hq : 0 ≤ x / 360 * n := by positivity
  rw [colOf, truncQ_of_nonneg hq]
  apply Int.floor_lt.mpr
  have hnpos : (0 : ℚ) < n := by exact_mod_cast hn
  calc x / 360 * n < 1 * n := by
        apply mul_lt_mul_of_pos_right ?_ hnpos
        exact (div_lt_one (by norm_num)).mpr hx
    _ = (n : ℚ) := one_mul _

/-! ### Generic list lemmas -/

theorem mapM_eq_map {α β : Type _} {f : α → Option β} {g : α → β} :
    ∀ {l : List α}, (∀ a ∈ l, f a = some (g a)) → l.mapM f = some (l.map g) := by
  intro l
  induction l with
  | nil => intro _; rfl
  | cons x xs ih =>
    intro h
    rw [List.mapM_cons, h x (List.mem_cons_self x xs),
      ih fun a ha => h a (List.mem_cons_of_mem x ha)]
    rfl

theorem zipWith_eq_map_zip {α β γ : Type _} (f : α → β → γ) :
    ∀ (l1 : List α) (l2 : List β),
      List.zipWith f l1 l2 = (l1.zip l2).map fun p => f p.1 p.2 := by
  intro l1
  induction l1 with
  | nil => intro l2; rfl
  | cons x xs ih =>
    intro l2
    cases l2 with
    | nil => rfl
    | cons y ys => simp [ih]

theorem scanl_add_get? :
    ∀ (l : List ℕ) (a k : ℕ), k ≤ l.length →
      (List.scanl (· + ·) a l).get? k = some (a + (l.take k).sum) := by
  intro l
  induction l with
  | nil =>
    intro a k hk
    have hk0 : k = 0 := by simpa using hk
    subst hk0
    simp [List.scanl_nil]
  | cons x xs ih =>
    intro a k hk
    cases k with
    | zero =>
      rw [List.scanl_cons]
      simp only [List.singleton_append, List.get?_eq_getElem?, List.length_cons,
        lt_add_iff_pos_left, add_pos_iff, zero_lt_one, or_true,
        List.getElem?_eq_getElem, List.getElem_cons_zero, List.take_zero,
        List.sum_nil, add_zero]
    | succ k =>
      rw [List.scanl_cons]
      simp only [List.singleton_append, List.get?_cons_succ]
      rw [ih (a + x) k (by simpa using hk)]
      congr 1
      simp only [List.take_succ_cons, List.sum_cons]
      omega

theorem bcZipWith_single {α β γ : Type _} (f : α → β → γ) (a : α) (ys : List β) :
    bcZipWith f [a] ys = some (ys.map (f a)) := by
  cases ys with
  | nil => rfl
  | cons y yt =>
    cases yt with
    | nil => rfl
    | cons z zt => rfl

theorem bcZipWith_eq_length {α β γ : Type _} (f : α → β → γ) (xs : List α)
    (ys : List β) (h : xs.length = ys.length) :
    bcZipWith f xs ys = some (List.zipWith f xs ys) := by
  unfold bcZipWith
  rw [if_pos h]

/-! ### Row counts of the concrete grids, and column-count facts -/

theorem nrowQ_quarter : nrowQ (1/4) = 721 := by
  have h : (⌈((90 + (1/4 : ℚ) / 2) - (-90)) / (1/4)⌉ : ℤ) = 721 := by
    rw [Int.ceil_eq_iff]
    norm_num
  rw [nrowQ, h]
  rfl

theorem nrowQ_twentieth : nrowQ (1/20) = 3601 := by
  have h : (⌈((90 + (1/20 : ℚ) / 2) - (-90)) / (1/20)⌉ : ℤ) = 3601 := by
    rw [Int.ceil_eq_iff]
    norm_num
  rw [nrowQ, h]
  rfl

theorem ncolOf_first (b : ℚ) : ncolOf b 0 = 1 := by simp [ncolOf]

theorem ncolOf_last (b : ℚ) : ncolOf b (nrowQ b - 1) = 1 := by simp [ncolOf]

theorem ncolOf_interior {b : ℚ} {i : ℕ} (h0 : i ≠ 0) (hl : i ≠ nrowQ b - 1) :
    ncolOf b i =
      (2 * ⌈360 / (b : ℝ) * Real.cos ((declo b i : ℝ) * Real.pi / 180) / 2⌉).toNat := by
  rw [ncolOf, if_neg]
  tauto

/-- The angle fed to `cos` lies strictly inside `(-π/2, π/2)` whenever
the declination is strictly between `-90` and `90` degrees. -/
theorem cos_declo_pos {q : ℚ} (h1 : -90 < q) (h2 : q < 90) :
    0 < Real.cos ((q : ℝ) * Real.pi / 180) := by
  have hpi : 0 < Real.pi := Real.pi_pos
  have hq1 : (-90 : ℝ) < (q : ℝ) := by exact_mod_cast h1
  have hq2 : ((q : ℝ)) < 90 := by exact_mod_cast h2
  apply Real.cos_pos_of_mem_Ioo
  constructor
  · nlinarith [mul_pos hpi (show (0 : ℝ) < (q : ℝ) + 90 by linarith)]
  · nlinarith [mul_pos hpi (show (0 : ℝ) < 90 - (q : ℝ) by linarith)]

/-- Interior rows have strictly sub-polar `declo`. -/
theorem declo_bounds {b : ℚ} {i : ℕ} (hb : 0 < b) (hb180 : b < 180)
    (hi : i < nrowQ b) (h0 : i ≠ 0) (hl : i ≠ nrowQ b - 1) :
    -90 < declo b i ∧ declo b i < 90 := by
  have hii : i + 2 ≤ nrowQ b := by
    have := nrowQ_pos hb
    omega
  have hiq : (i : ℚ) + 2 ≤ ((nrowQ b : ℕ) : ℚ) := by exact_mod_cast hii
  have h1q : (1 : ℚ) ≤ (i : ℚ) := by exact_mod_cast Nat.one_le_iff_ne_zero.mpr h0
  set argQ : ℚ := ((90 + b / 2) - (-90)) / b with hargQ
  have hargb : argQ * b = 180 + b / 2 := by
    rw [hargQ, div_mul_cancel₀]
    · ring
    · exact ne_of_gt hb
  have hnrow : ((nrowQ b : ℕ) : ℚ) < argQ + 1 := by
    have hc : (⌈argQ⌉ : ℚ) < argQ + 1 := Int.ceil_lt_add_one argQ
    have hcast : ((nrowQ b : ℕ) : ℤ) = ⌈argQ⌉ := nrowQ_cast hb
    have hcast' : ((nrowQ b : ℕ) : ℚ) = ((⌈argQ⌉ : ℤ) : ℚ) := by exact_mod_cast hcast
    rw [hcast']
    exact hc
  have hib : (i : ℚ) * b < 180 - b / 2 := by
    have h2 : ((i : ℚ) + 2) * b ≤ ((nrowQ b : ℕ) : ℚ) * b :=
      mul_le_mul_of_nonneg_right hiq hb.le
    have h3 : ((nrowQ b : ℕ) : ℚ) * b < (argQ + 1) * b :=
      mul_lt_mul_of_pos_right hnrow hb
    nlinarith [hargb]
  have hcenter_hi : centerDec b i < 90 - b / 2 := by
    rw [centerDec]
    linarith
  have hcenter_lo : -90 + b / 2 < centerDec b i := by
    rw [centerDec]
    nlinarith [mul_le_mul_of_nonneg_right h1q hb.le]
  have habs : |centerDec b i| < 90 - b / 2 := by
    rw [abs_lt]
    constructor <;> nlinarith
  rw [declo]
  constructor <;> nlinarith [abs_nonneg (centerDec b i)]

theorem ncolOf_quarter_le (i : ℕ) : ncolOf (1/4) i ≤ 1440 := by
  by_cases hp : i = 0 ∨ i = nrowQ (1/4) - 1
  · rw [ncolOf, if_pos hp]
    norm_num
  · push_neg at hp
    rw [ncolOf_interior hp.1 hp.2]
    set c := Real.cos ((declo (1/4) i : ℝ) * Real.pi / 180) with hc
    have hc1 : c ≤ 1 := Real.cos_le_one _
    have hb : (360 : ℝ) / ((1/4 : ℚ) : ℝ) = 1440 := by push_cast; norm_num
    have harg : 360 / ((1/4 : ℚ) : ℝ) * c / 2 ≤ ((720 : ℤ) : ℝ) := by
      rw [hb]
      push_cast
      nlinarith
    have hceil : ⌈360 / ((1/4 : ℚ) : ℝ) * c / 2⌉ ≤ 720 := Int.ceil_le.mpr harg
    omega

theorem ncolOf_quarter_360 : ncolOf (1/4) 360 = 1440 := by
  have hl : (360 : ℕ) ≠ nrowQ (1/4) - 1 := by rw [nrowQ_quarter]; norm_num
  rw [ncolOf_interior (by norm_num) hl]
  have hdeclo : declo (1/4) 360 = -(1/8) := by
    rw [declo, centerDec]
    norm_num
  rw [hdeclo]
  have hb : (360 : ℝ) / ((1/4 : ℚ) : ℝ) = 1440 := by push_cast; norm_num
  have hcos : ((((-(1/8) : ℚ)) : ℝ)) * Real.pi / 180 = -(Real.pi / 1440) := by
    push_cast
    ring
  rw [hb, hcos, Real.cos_neg]
  have hpi := Real.pi_pos
  have hpisq : Real.pi ^ 2 ≤ 16 := by nlinarith [Real.pi_le_four]
  have hub : Real.cos (Real.pi / 1440) ≤ 1 := Real.cos_le_one _
  have hlb : 1 - (Real.pi / 1440) ^ 2 / 2 ≤ Real.cos (Real.pi / 1440) :=
    Real.one_sub_sq_div_two_le_cos
  have hceil : ⌈(1440 : ℝ) * Real.cos (Real.pi / 1440) / 2⌉ = 720 := by
    rw [Int.ceil_eq_iff]
    constructor
    · push_cast
      nlinarith
    · push_cast
      nlinarith
  rw [hceil]
  rfl

theorem ncolOf_twentieth_1801 : ncolOf (1/20) 1801 = ncolOf (1/20) 1800 := by
  have hn := nrowQ_twentieth
  rw [ncolOf_interior (by norm_num) (by rw [hn]; norm_num),
    ncolOf_interior (by norm_num) (by rw [hn]; norm_num)]
  have h1 : declo (1/20) 1801 = 1/40 := by
    rw [declo, centerDec]
    rw [show (-90 + ((1801 : ℕ) : ℚ) * (1/20)) = 1/20 by push_cast; norm_num]
    rw [abs_of_nonneg (by norm_num : (0 : ℚ) ≤ 1/20)]
    norm_num
  have h2 : declo (1/20) 1800 = -(1/40) := by
    rw [declo, centerDec]
    norm_num
  rw [h1, h2]
  have hneg : ((((-(1/40) : ℚ)) : ℝ)) * Real.pi / 180 =
      -((((1/40 : ℚ) : ℝ)) * Real.pi / 180) := by
    push_cast
    ring
  rw [hneg, Real.cos_neg]

theorem ncolOf_pos {b : ℚ} {i : ℕ} (hb : 0 < b) (hb180 : b < 180)
    (hi : i < nrowQ b) : 1 ≤ ncolOf b i := by
  by_cases hp : i = 0 ∨ i = nrowQ b - 1
  · rw [ncolOf, if_pos hp]
  · push_neg at hp
    rw [ncolOf_interior hp.1 hp.2]
    obtain ⟨hlo, hhi⟩ := declo_bounds hb hb180 hi hp.1 hp.2
    have hcos := cos_declo_pos hlo hhi
    have hbR : (0 : ℝ) < (b : ℚ) := by exact_mod_cast hb
    have hx : 0 < 360 / (b : ℝ) * Real.cos ((declo b i : ℝ) * Real.pi / 180) :=
      mul_pos (div_pos (by norm_num) hbR) hcos
    have hceil : 1 ≤ ⌈360 / (b : ℝ) * Real.cos ((declo b i : ℝ) * Real.pi / 180) / 2⌉ :=
      Int.ceil_pos.mpr (by positivity)
    omega

/-! ### Brick-name structure -/

theorem padDigits_take (u v n : ℕ) :
    (padDigits (u + v) n).take u = padDigits u (n / 10 ^ v) := by
  rw [padDigits_add, List.take_left' (length_padDigits u _)]

theorem name_parts_inj {A A' C C' : List Char} {p p' : Char}
    (hA : A.length = A'.length)
    (h : A ++ [p] ++ C = A' ++ [p'] ++ C') : A = A' ∧ p = p' ∧ C = C' := by
  rw [List.append_assoc, List.append_assoc] at h
  obtain ⟨h1, h2⟩ := List.append_inj h hA
  simp only [List.singleton_append, List.cons.injEq] at h2
  exact ⟨h1, h2.1, h2.2⟩

theorem nameAt_decomp (b : ℚ) (ncol : ℕ → ℕ) (i j : ℕ) :
    nameAt b ncol i j =
      ⟨padDigits 4 (raCode (ncol i) j) ++ [pmChar b i] ++ padDigits 3 (decCode b i)⟩ := by
  rw [nameAt, raDigits, decDigits, raCode, decCode]
  have h7 : (padDigits 7 (pyRound (centerRa (ncol i) j * 10000)).toNat).take 4 =
      padDigits 4 ((pyRound (centerRa (ncol i) j * 10000)).toNat / 10 ^ 3) :=
    padDigits_take 4 3 _
  have h6 : (padDigits 6 (pyRound (|centerDec b i| * 10000)).toNat).take 3 =
      padDigits 3 ((pyRound (|centerDec b i| * 10000)).toNat / 10 ^ 3) :=
    padDigits_take 3 3 _
  rw [h7, h6]
  norm_num

/-- The stored name is exactly the specification's encoder applied to the
brick's two centers. -/
theorem nameAt_eq_specEncode (b : ℚ) (ncol : ℕ → ℕ) (i j : ℕ) :
    nameAt b ncol i j = specEncode (centerRa (ncol i) j) (centerDec b i) := rfl

theorem nameAt_length (b : ℚ) (ncol : ℕ → ℕ) (i j : ℕ) :
    (nameAt b ncol i j).length = 8 := by
  rw [nameAt_decomp]
  show (padDigits 4 _ ++ [pmChar b i] ++ padDigits 3 _).length = 8
  rw [List.length_append, List.length_append, length_padDigits, length_padDigits]
  rfl

theorem centerRa_nonneg (n j : ℕ) : 0 ≤ centerRa n j := by
  rw [centerRa, edgesRa, edgesRa]
  positivity

theorem centerRa_lt_360 {n j : ℕ} (hj : j < n) : centerRa n j < 360 := by
  have hn : (0 : ℚ) < n := by exact_mod_cast Nat.pos_of_ne_zero (by omega)
  rw [centerRa, edgesRa, edgesRa]
  have hjq : (j : ℚ) < n := by exact_mod_cast hj
  have hjq1 : ((j : ℚ) + 1) ≤ n := by exact_mod_cast hj
  have h1 : (360 : ℚ) * j / n < 360 := by
    rw [div_lt_iff hn]
    nlinarith
  have h2 : (360 : ℚ) * (((j + 1) : ℕ) : ℚ) / n ≤ 360 := by
    rw [div_le_iff hn]
    push_cast
    nlinarith
  linarith

theorem raCode_lt_10000 {n j : ℕ} (hj : j < n) : raCode n j < 10000 := by
  have h1 : centerRa n j * 10000 < 3600000 := by nlinarith [centerRa_lt_360 hj]
  have h2 := pyRound_le (centerRa n j * 10000)
  have h3 : (pyRound (centerRa n j * 10000) : ℤ) < 3600001 := by
    have hq : (pyRound (centerRa n j * 10000) : ℚ) < ((3600001 : ℤ) : ℚ) := by
      push_cast
      linarith
    exact_mod_cast hq
  have h4 : (pyRound (centerRa n j * 10000)).toNat ≤ 3600000 := by omega
  calc raCode n j ≤ 3600000 / 1000 := Nat.div_le_div_right h4
    _ < 10000 := by norm_num

theorem raCode_strictMono {n j k : ℕ} (hn : n ≤ 1440) (hjk : j < k) (hk : k < n) :
    raCode n j < raCode n k := by
  have hn1 : 1 ≤ n := by omega
  have hN : (0 : ℚ) < n := by exact_mod_cast hn1
  have hNle : (n : ℚ) ≤ 1440 := by exact_mod_cast hn
  have hcj : centerRa n j * 10000 = 1800000 * (2 * (j : ℚ) + 1) / n := by
    rw [centerRa, edgesRa, edgesRa]
    push_cast
    field_simp
    ring
  have hck : centerRa n k * 10000 = 1800000 * (2 * (k : ℚ) + 1) / n := by
    rw [centerRa, edgesRa, edgesRa]
    push_cast
    field_simp
    ring
  have hkj : (j : ℚ) + 1 ≤ k := by exact_mod_cast hjk
  have hdiff : centerRa n j * 10000 + 2500 ≤ centerRa n k * 10000 := by
    rw [hcj, hck]
    have key : 1800000 * (2 * (j : ℚ) + 1) + 2500 * n ≤ 1800000 * (2 * (k : ℚ) + 1) := by
      nlinarith
    have hform : 1800000 * (2 * (j : ℚ) + 1) / n + 2500 =
        (1800000 * (2 * (j : ℚ) + 1) + 2500 * n) / n := by
      field_simp
    rw [hform]
    exact (div_le_div_right hN).mpr key
  have hrj := pyRound_le (centerRa n j * 10000)
  have hrk := le_pyRound (centerRa n k * 10000)
  have hZ : pyRound (centerRa n j * 10000) + 2499 ≤ pyRound (centerRa n k * 10000) := by
    have hq : (pyRound (centerRa n j * 10000) : ℚ) + 2499 ≤
        (pyRound (centerRa n k * 10000) : ℚ) := by linarith
    exact_mod_cast hq
  have hj0 : 0 ≤ pyRound (centerRa n j * 10000) :=
    pyRound_nonneg (mul_nonneg (centerRa_nonneg n j) (by norm_num))
  rw [raCode, raCode]
  have h2000 : (pyRound (centerRa n j * 10000)).toNat + 2 * 1000 ≤
      (pyRound (centerRa n k * 10000)).toNat := by omega
  have hmono : ((pyRound (centerRa n j * 10000)).toNat + 2 * 1000) / 1000 ≤
      (pyRound (centerRa n k * 10000)).toNat / 1000 := Nat.div_le_div_right h2000
  have hsplit : ((pyRound (centerRa n j * 10000)).toNat + 2 * 1000) / 1000 =
      (pyRound (centerRa n j * 10000)).toNat / 1000 + 2 :=
    Nat.add_mul_div_right _ _ (by norm_num)
  omega

theorem pyRound_natCast (m : ℕ) : pyRound ((m : ℕ) : ℚ) = m := by
  have h := pyRound_intCast ((m : ℕ) : ℤ)
  have hc : (((m : ℕ) : ℤ) : ℚ) = ((m : ℕ) : ℚ) := by push_cast; rfl
  rw [hc] at h
  exact_mod_cast h

theorem centerDec_quarter (i : ℕ) : centerDec (1/4) i = (((i : ℤ) - 360 : ℤ) : ℚ) / 4 := by
  rw [centerDec]
  push_cast
  ring

theorem decCode_quarter (i : ℕ) :
    decCode (1/4) i = 2500 * ((i : ℤ) - 360).natAbs / 1000 := by
  rw [decCode]
  have habs : |centerDec (1/4) i| * 10000 =
      (((2500 * ((i : ℤ) - 360).natAbs : ℕ) : ℕ) : ℚ) := by
    rw [centerDec_quarter, abs_div]
    rw [show |(4 : ℚ)| = 4 by norm_num]
    rw [← Int.cast_abs, Int.abs_eq_natAbs]
    push_cast
    rw [Int.cast_natAbs]
    push_cast
    ring
  rw [habs, pyRound_natCast, Int.toNat_natCast]

theorem decCodeAux_mono {d e : ℕ} (h : d < e) : 2500 * d / 1000 < 2500 * e / 1000 := by
  have hle : 2500 * d + 2 * 1000 ≤ 2500 * e := by omega
  have h1 : (2500 * d + 2 * 1000) / 1000 ≤ 2500 * e / 1000 := Nat.div_le_div_right hle
  have h2 : (2500 * d + 2 * 1000) / 1000 = 2500 * d / 1000 + 2 :=
    Nat.add_mul_div_right _ _ (by norm_num)
  omega

theorem decCode_quarter_lt (i : ℕ) (hi : i ≤ 720) : decCode (1/4) i < 10 ^ 3 := by
  rw [decCode_quarter]
  have hd : ((i : ℤ) - 360).natAbs ≤ 360 := by omega
  have h1 : 2500 * ((i : ℤ) - 360).natAbs ≤ 900000 := by omega
  have h2 : 2500 * ((i : ℤ) - 360).natAbs / 1000 ≤ 900000 / 1000 := Nat.div_le_div_right h1
  omega

theorem pmChar_quarter (i : ℕ) : pmChar (1/4) i = if 360 ≤ i then 'p' else 'm' := by
  rw [pmChar]
  have hiff : 0 ≤ centerDec (1/4) i ↔ 360 ≤ i := by
    rw [centerDec]
    constructor
    · intro h
      by_contra hlt
      push_neg at hlt
      have hq : (i : ℚ) < 360 := by exact_mod_cast hlt
      nlinarith
    · intro h
      have hq : (360 : ℚ) ≤ i := by exact_mod_cast h
      nlinarith
  by_cases h : 360 ≤ i
  · rw [if_pos (hiff.mpr h), if_pos h]
  · rw [if_neg (fun hc => h (hiff.mp hc)), if_neg h]

/-- Distinct positions of the `bricksize = 1/4` grid have distinct names. -/
theorem nameAt_quarter_inj {i j i' j' : ℕ} (hi : i < 721) (hi' : i' < 721)
    (hj : j < ncolOf (1/4) i) (hj' : j' < ncolOf (1/4) i')
    (hne : ¬(i = i' ∧ j = j'))
    (h : nameAt (1/4) (ncolOf (1/4)) i j = nameAt (1/4) (ncolOf (1/4)) i' j') :
    False := by
  rw [nameAt_decomp, nameAt_decomp] at h
  have hdata : padDigits 4 (raCode (ncolOf (1/4) i) j) ++ [pmChar (1/4) i] ++
      padDigits 3 (decCode (1/4) i) =
      padDigits 4 (raCode (ncolOf (1/4) i') j') ++ [pmChar (1/4) i'] ++
      padDigits 3 (decCode (1/4) i') := congrArg String.data h
  obtain ⟨hra, hpm, hdec⟩ :=
    name_parts_inj (by rw [length_padDigits, length_padDigits]) hdata
  have hdceq : decCode (1/4) i = decCode (1/4) i' :=
    padDigits_inj (decCode_quarter_lt i (by omega)) (decCode_quarter_lt i' (by omega)) hdec
  have hd : ((i : ℤ) - 360).natAbs = ((i' : ℤ) - 360).natAbs := by
    by_contra hcc
    rw [decCode_quarter, decCode_quarter] at hdceq
    rcases Nat.lt_or_ge (((i : ℤ) - 360).natAbs) (((i' : ℤ) - 360).natAbs) with hlt | hge
    · exact absurd hdceq (ne_of_lt (decCodeAux_mono hlt))
    · have hlt' : ((i' : ℤ) - 360).natAbs < ((i : ℤ) - 360).natAbs := by omega
      exact absurd hdceq.symm (ne_of_lt (decCodeAux_mono hlt'))
  have hpmiff : (360 ≤ i) ↔ (360 ≤ i') := by
    rw [pmChar_quarter, pmChar_quarter] at hpm
    by_cases h1 : 360 ≤ i <;> by_cases h2 : 360 ≤ i'
    · exact iff_of_true h1 h2
    · rw [if_pos h1, if_neg h2] at hpm
      exact absurd hpm (by decide)
    · rw [if_neg h1, if_pos h2] at hpm
      exact absurd hpm (by decide)
    · exact iff_of_false h1 h2
  have hrow : i = i' := by
    by_cases hc : 360 ≤ i
    · have hc' := hpmiff.mp hc
      omega
    · have hc2 : ¬360 ≤ i' := fun hh => hc (hpmiff.mpr hh)
      omega
  subst hrow
  have hb1 : raCode (ncolOf (1/4) i) j < 10 ^ 4 := by
    have := raCode_lt_10000 hj
    omega
  have hb2 : raCode (ncolOf (1/4) i) j' < 10 ^ 4 := by
    have := raCode_lt_10000 hj'
    omega
  have hrc : raCode (ncolOf (1/4) i) j = raCode (ncolOf (1/4) i) j' :=
    padDigits_inj hb1 hb2 hra
  rcases lt_trichotomy j j' with hlt | heq | hgt
  · exact absurd hrc (ne_of_lt (raCode_strictMono (ncolOf_quarter_le i) hlt hj'))
  · exact hne ⟨rfl, heq⟩
  · exact absurd hrc.symm (ne_of_lt (raCode_strictMono (ncolOf_quarter_le i) hgt hj))

/-! ### Per-point evaluation of the lookups on valid rows -/

theorem colV_nonneg (b : ℚ) (ncol : ℕ → ℕ) (ra dec : ℚ) :
    0 ≤ colV b ncol ra dec :=
  colOf_nonneg (raMod_nonneg ra)

theorem colV_lt {b : ℚ} {ncol : ℕ → ℕ} (ra : ℚ) {dec : ℚ}
    (hn : 1 ≤ ncol (rowOf b dec).toNat) :
    colV b ncol ra dec < (ncol (rowOf b dec).toNat : ℤ) :=
  colOf_lt (raMod_nonneg ra) (raMod_lt ra) hn

theorem rowcolPt_eq {b dec : ℚ} (ncol : ℕ → ℕ) (ra : ℚ) (hv : ValidRow b dec) :
    rowcolPt b ncol ra dec = some (rowOf b dec, colV b ncol ra dec) := by
  rw [rowcolPt, npGetF_eq_some _ _ _ hv.1 hv.2]
  rfl

theorem npGetL_range_map {α : Type _} (g : ℕ → α) (m : ℕ) (c : ℤ)
    (hc0 : 0 ≤ c) (hc : c < (m : ℤ)) :
    npGetL ((List.range m).map g) c = some (g c.toNat) := by
  rw [npGetL_eq_get? _ _ hc0, List.get?_map, List.get?_range (by omega)]
  rfl

theorem brickqPt_eq {b dec : ℚ} (ncol : ℕ → ℕ) (ra : ℚ) (hv : ValidRow b dec) :
    brickqPt b ncol ra dec = some (qVal b ncol ra dec) := by
  rw [brickqPt, rowcolPt_eq ncol ra hv]
  rfl

theorem bricknamePt_eq {b dec : ℚ} {ncol : ℕ → ℕ} (ra : ℚ) (hv : ValidRow b dec)
    (hn : 1 ≤ ncol (rowOf b dec).toNat) :
    bricknamePt b ncol ra dec = some (nameVal b ncol ra dec) := by
  rw [bricknamePt, rowcolPt_eq ncol ra hv]
  show (npGetF (nrowQ b) (nameRow b ncol) (rowOf b dec)).bind _ = _
  rw [npGetF_eq_some _ _ _ hv.1 hv.2]
  show npGetL (nameRow b ncol (rowOf b dec).toNat) (colV b ncol ra dec) = _
  rw [nameRow, npGetL_range_map _ _ _ (colV_nonneg b ncol ra dec) (colV_lt ra hn)]
  rfl

theorem brickareaPt_eq {b dec : ℚ} {ncol : ℕ → ℕ} (ra : ℚ) (hv : ValidRow b dec)
    (hn : 1 ≤ ncol (rowOf b dec).toNat) :
    brickareaPt b ncol ra dec = some (areaVal b ncol ra dec) := by
  rw [brickareaPt, rowcolPt_eq ncol ra hv]
  show (npGetF (nrowQ b) (areaRow b ncol) (rowOf b dec)).bind _ = _
  rw [npGetF_eq_some _ _ _ hv.1 hv.2]
  show npGetL (areaRow b ncol (rowOf b dec).toNat) (colV b ncol ra dec) = _
  rw [areaRow, npGetL_range_map _ _ _ (colV_nonneg b ncol ra dec) (colV_lt ra hn)]
  rfl

theorem brickradecPt_eq {b dec : ℚ} {ncol : ℕ → ℕ} (ra : ℚ) (hv : ValidRow b dec)
    (hn : 1 ≤ ncol (rowOf b dec).toNat) :
    brickradecPt b ncol ra dec = some (radecVal b ncol ra dec) := by
  rw [brickradecPt, rowcolPt_eq ncol ra hv]
  show (npGetF (nrowQ b) _ (rowOf b dec)).bind _ = _
  rw [npGetF_eq_some _ _ _ hv.1 hv.2]
  show (npGetL ((List.range (ncol (rowOf b dec).toNat)).map
      (centerRa (ncol (rowOf b dec).toNat))) (colV b ncol ra dec)).bind _ = _
  rw [npGetL_range_map _ _ _ (colV_nonneg b ncol ra dec) (colV_lt ra hn)]
  show (npGetF (nrowQ b) (centerDec b) (rowOf b dec)).map _ = _
  rw [npGetF_eq_some _ _ _ hv.1 hv.2]
  rfl

theorem brickverticesPt_eq {b dec : ℚ} {ncol : ℕ → ℕ} (ra : ℚ) (hv : ValidRow b dec)
    (hn : 1 ≤ ncol (rowOf b dec).toNat) :
    brickverticesPt b ncol ra dec = some (verticesVal b ncol ra dec) := by
  obtain ⟨hv1, hv2⟩ := hv
  have hv : ValidRow b dec := ⟨hv1, hv2⟩
  have hc0 := colV_nonneg b ncol ra dec
  have hc1 := colV_lt ra hn
  have htn : (colV b ncol ra dec + 1).toNat = (colV b ncol ra dec).toNat + 1 := by omega
  have hrn : (rowOf b dec + 1).toNat = (rowOf b dec).toNat + 1 := by omega
  rw [brickverticesPt, rowcolPt_eq ncol ra hv]
  show (npGetF (nrowQ b) (edgesRaRow ncol) (rowOf b dec)).bind _ = _
  rw [npGetF_eq_some _ _ _ hv.1 hv.2]
  show (npGetL (edgesRaRow ncol (rowOf b dec).toNat) (colV b ncol ra dec)).bind _ = _
  rw [edgesRaRow, npGetL_range_map _ _ _ hc0 (by push_cast; omega)]
  show (npGetL _ (colV b ncol ra dec + 1)).bind _ = _
  rw [npGetL_range_map _ _ _ (by omega) (by push_cast; omega), htn]
  show (npGetF (nrowQ b + 1) (edgesDec b) (rowOf b dec)).bind _ = _
  rw [npGetF_eq_some _ _ _ hv.1 (by push_cast; omega)]
  show (npGetF (nrowQ b + 1) (edgesDec b) (rowOf b dec + 1)).map _ = _
  rw [npGetF_eq_some _ _ _ (by omega) (by push_cast; omega), hrn]
  rfl

theorem ncolsum_get {b : ℚ} {r : ℤ} (h0 : 0 ≤ r) (h1 : r < (nrowQ b : ℤ)) :
    npGetL (ncolsumList b) r = some (((List.range r.toNat).map (ncolOf b)).sum) := by
  rw [npGetL_eq_get? _ _ h0, ncolsumList]
  rw [scanl_add_get? _ _ _ (by rw [ncolList, List.length_map, List.length_range]; omega)]
  congr 1
  rw [ncolList, ← List.map_take, List.take_range, Nat.min_eq_left (by omega)]
  omega

theorem brickidPt_eq {b dec : ℚ} (ra : ℚ) (hv : ValidRow b dec) :
    brickidPt b ra dec = some (idVal b ra dec) := by
  rw [brickidPt, rowcolPt_eq (ncolOf b) ra hv]
  show (npGetL (ncolsumList b) (rowOf b dec)).map _ = _
  rw [ncolsum_get hv.1 hv.2]
  rfl

/-! ### Concrete evaluations at the poles and near them -/

theorem rowOf_neg90 {b : ℚ} (hb : 0 < b) : rowOf b (-90) = 0 := by
  have harg : (-90 + 90 + b / 2) / b = 1 / 2 := by
    rw [div_eq_iff (ne_of_gt hb)]
    ring
  rw [rowOf, harg, truncQ_of_nonneg (by norm_num)]
  norm_num

theorem rowOf_quarter_90 : rowOf (1/4) 90 = 720 := by
  norm_num [rowOf, truncQ]

theorem rowOf_quarter_0 : rowOf (1/4) 0 = 360 := by
  norm_num [rowOf, truncQ]

theorem rowOf_quarter_above : rowOf (1/4) (90 + 1/16) = 720 := by
  norm_num [rowOf, truncQ]

theorem raMod_zero : raMod 0 = 0 := by norm_num [raMod]

theorem colOf_one {x : ℚ} (hx0 : 0 ≤ x) (hx : x < 360) : colOf 1 x = 0 := by
  have h1 : 0 ≤ colOf 1 x := colOf_nonneg hx0
  have h2 : colOf 1 x < ((1 : ℕ) : ℤ) := colOf_lt hx0 hx (le_refl 1)
  omega

theorem ncolOf_quarter_720 : ncolOf (1/4) 720 = 1 := by
  have h := ncolOf_last (1/4)
  rwa [nrowQ_quarter] at h

theorem valid_quarter_90 : ValidRow (1/4) 90 := by
  constructor
  · rw [rowOf_quarter_90]
    norm_num
  · rw [rowOf_quarter_90, nrowQ_quarter]
    norm_num

theorem colV_quarter_90 (ra : ℚ) : colV (1/4) (ncolOf (1/4)) ra 90 = 0 := by
  rw [colV, rowOf_quarter_90]
  show colOf (ncolOf (1/4) ((720 : ℤ)).toNat) (raMod ra) = 0
  rw [show ((720 : ℤ)).toNat = 720 from rfl, ncolOf_quarter_720]
  exact colOf_one (raMod_nonneg ra) (raMod_lt ra)

/-- The north-pole row of the default grid is governed by the general
quadrant formula: since it is row 720 (even) with a single column, the
quadrant comes out `0`. -/
theorem brickq_quarter_north (ra : ℚ) :
    brickqPt (1/4) (ncolOf (1/4)) ra 90 = some 0 := by
  rw [brickqPt_eq _ ra valid_quarter_90, qVal, colV_quarter_90, rowOf_quarter_90]
  norm_num

/-- At the south pole the located row is `0` for every brick size, so the
override `brickq[irow == 0] = 1` applies. -/
theorem brickq_south (b : ℚ) (hb : 0 < b) (ra : ℚ) :
    brickqPt b (ncolOf b) ra (-90) = some 1 := by
  have hv : ValidRow b (-90) := by
    constructor
    · rw [rowOf_neg90 hb]
    · rw [rowOf_neg90 hb]
      exact_mod_cast nrowQ_pos hb
  rw [brickqPt_eq _ ra hv, qVal, rowOf_neg90 hb]
  norm_num

/-! ### When does the row lookup raise, for the default grid? -/

theorem npGetF_none_iff {α : Type _} (len : ℕ) (f : ℕ → α) (i : ℤ) :
    npGetF len f i = none ↔ (i < -(len : ℤ) ∨ (len : ℤ) ≤ i) := by
  unfold npGetF
  split_ifs with h1 h2 h3
  · exact iff_of_false not_false (by omega)
  · exact iff_of_true rfl (by omega)
  · exact iff_of_false not_false (by omega)
  · exact iff_of_true rfl (by omega)

theorem npGetF_wrap {len : ℕ} {i : ℤ} (h : ¬(i < -(len : ℤ) ∨ (len : ℤ) ≤ i)) :
    ∃ k : ℕ, k < len ∧ ∀ {α : Type _} (g : ℕ → α), npGetF len g i = some (g k) := by
  push_neg at h
  by_cases h0 : 0 ≤ i
  · exact ⟨i.toNat, by omega, fun g => npGetF_eq_some _ _ _ h0 (by omega)⟩
  · refine ⟨((len : ℤ) + i).toNat, by omega, fun g => ?_⟩
    unfold npGetF
    rw [if_neg h0, if_pos (by omega)]

theorem rowOf_quarter_arg (dec : ℚ) :
    (dec + 90 + (1/4 : ℚ) / 2) / (1/4) = 4 * dec + 721 / 2 := by
  rw [div_eq_iff (by norm_num : (1/4 : ℚ) ≠ 0)]
  ring

theorem rowOf_quarter_ge_iff (dec : ℚ) :
    (721 : ℤ) ≤ rowOf (1/4) dec ↔ 721 / 8 ≤ dec := by
  rw [rowOf, truncQ]
  split_ifs with h
  · rw [Int.le_floor, rowOf_quarter_arg]
    push_cast
    constructor <;> intro <;> linarith
  · push_neg at h
    rw [rowOf_quarter_arg] at h
    constructor
    · intro hc
      exfalso
      have h2 : 0 ≤ ⌊-((dec + 90 + (1/4 : ℚ) / 2) / (1/4))⌋ := by
        apply Int.floor_nonneg.mpr
        rw [rowOf_quarter_arg] at *
        linarith
      omega
    · intro hc
      exfalso
      linarith

theorem rowOf_quarter_lt_iff (dec : ℚ) :
    rowOf (1/4) dec < -(721 : ℤ) ↔ dec ≤ -2165 / 8 := by
  rw [rowOf, truncQ]
  split_ifs with h
  · constructor
    · intro hc
      exfalso
      have h2 : (0 : ℤ) ≤ ⌊(dec + 90 + (1/4 : ℚ) / 2) / (1/4)⌋ := Int.floor_nonneg.mpr h
      omega
    · intro hc
      exfalso
      rw [rowOf_quarter_arg] at h
      linarith
  · push_neg at h
    have key : -⌊-((dec + 90 + (1/4 : ℚ) / 2) / (1/4))⌋ < -721 ↔
        (722 : ℤ) ≤ ⌊-((dec + 90 + (1/4 : ℚ) / 2) / (1/4))⌋ := by omega
    rw [key, Int.le_floor, rowOf_quarter_arg]
    push_cast
    constructor <;> intro <;> linarith

theorem colOf_zero (n : ℕ) : colOf n 0 = 0 := by
  rw [colOf]
  norm_num [truncQ]

theorem bricknamePt_quarter_some (ra dec : ℚ)
    (h : ¬(rowOf (1/4) dec < -((nrowQ (1/4) : ℕ) : ℤ) ∨
        ((nrowQ (1/4) : ℕ) : ℤ) ≤ rowOf (1/4) dec)) :
    ∃ s, bricknamePt (1/4) (ncolOf (1/4)) ra dec = some s := by
  obtain ⟨k, hk, hg⟩ := npGetF_wrap h
  have hpos : 1 ≤ ncolOf (1/4) k := ncolOf_pos (by norm_num) (by norm_num) hk
  refine ⟨nameAt (1/4) (ncolOf (1/4)) k (colOf (ncolOf (1/4) k) (raMod ra)).toNat, ?_⟩
  rw [bricknamePt, rowcolPt, hg (ncolOf (1/4))]
  show (npGetF (nrowQ (1/4)) (nameRow (1/4) (ncolOf (1/4))) (rowOf (1/4) dec)).bind _ = _
  rw [hg (nameRow (1/4) (ncolOf (1/4)))]
  show npGetL (nameRow (1/4) (ncolOf (1/4)) k) (colOf (ncolOf (1/4) k) (raMod ra)) = _
  rw [nameRow, npGetL_range_map _ _ _ (colOf_nonneg (raMod_nonneg ra))
    (colOf_lt (raMod_nonneg ra) (raMod_lt ra) hpos)]

theorem raDigits_quarter_720 : raDigits (ncolOf (1/4) 720) 0 = padDigits 7 1800000 := by
  rw [ncolOf_quarter_720, raDigits]
  have hc : centerRa 1 0 * 10000 = ((1800000 : ℕ) : ℚ) := by
    rw [centerRa, edgesRa, edgesRa]
    push_cast
    norm_num
  rw [hc, pyRound_natCast, Int.toNat_natCast]

theorem pmChar_quarter_720 : pmChar (1/4) 720 = 'p' := by
  rw [pmChar, if_pos]
  rw [centerDec]
  norm_num

theorem decDigits_quarter_720 : decDigits (1/4) 720 = padDigits 6 900000 := by
  rw [decDigits]
  have hc : |centerDec (1/4) 720| * 10000 = ((900000 : ℕ) : ℚ) := by
    rw [centerDec]
    norm_num
  rw [hc, pyRound_natCast, Int.toNat_natCast]

/-- Looking up a declination beyond the north pole pad (dec = 90.0625, well
outside `[-90, 90]`) silently produces the north polar brick's name. -/
theorem brickname_quarter_silent :
    bricknamePt (1/4) (ncolOf (1/4)) 0 (90 + 1/16) = some "1800p900" := by
  have hv : ValidRow (1/4) (90 + 1/16) := by
    constructor
    · rw [rowOf_quarter_above]
      norm_num
    · rw [rowOf_quarter_above, nrowQ_quarter]
      norm_num
  have hn : 1 ≤ ncolOf (1/4) (rowOf (1/4) (90 + 1/16)).toNat := by
    rw [rowOf_quarter_above]
    show 1 ≤ ncolOf (1/4) ((720 : ℤ)).toNat
    rw [show ((720 : ℤ)).toNat = 720 from rfl, ncolOf_quarter_720]
  rw [bricknamePt_eq 0 hv hn]
  rw [nameVal, rowOf_quarter_above]
  have hcv : colV (1/4) (ncolOf (1/4)) 0 (90 + 1/16) = 0 := by
    rw [colV, raMod_zero, colOf_zero]
  rw [hcv]
  show some (nameAt (1/4) (ncolOf (1/4)) 720 0) = _
  rw [nameAt, raDigits_quarter_720, pmChar_quarter_720, decDigits_quarter_720]
  decide

theorem valid_quarter_0 : ValidRow (1/4) 0 := by
  constructor
  · rw [rowOf_quarter_0]
    norm_num
  · rw [rowOf_quarter_0, nrowQ_quarter]
    norm_num

theorem centerRa_1440_0 : centerRa 1440 0 = 1/8 := by
  rw [centerRa, edgesRa, edgesRa]
  norm_num

theorem centerDec_quarter_360 : centerDec (1/4) 360 = 0 := by
  rw [centerDec]
  norm_num

theorem rowcol_quarter_origin :
    rowcolPt (1/4) (ncolOf (1/4)) 0 0 = some (360, 0) := by
  rw [rowcolPt_eq (ncolOf (1/4)) 0 valid_quarter_0]
  rw [colV, raMod_zero, colOf_zero, rowOf_quarter_0]

theorem brickname_origin :
    bricknamePt (1/4) (ncolOf (1/4)) 0 0 = some "0001p000" := by
  have hn : 1 ≤ ncolOf (1/4) (rowOf (1/4) 0).toNat := by
    rw [rowOf_quarter_0]
    show 1 ≤ ncolOf (1/4) ((360 : ℤ)).toNat
    rw [show ((360 : ℤ)).toNat = 360 from rfl, ncolOf_quarter_360]
    norm_num
  rw [bricknamePt_eq 0 valid_quarter_0 hn]
  rw [nameVal, rowOf_quarter_0]
  have hcv : colV (1/4) (ncolOf (1/4)) 0 0 = 0 := by
    rw [colV, raMod_zero, colOf_zero]
  rw [hcv]
  show some (nameAt (1/4) (ncolOf (1/4)) 360 0) = _
  have hra : raDigits (ncolOf (1/4) 360) 0 = padDigits 7 1250 := by
    rw [ncolOf_quarter_360, raDigits]
    have hc : centerRa 1440 0 * 10000 = ((1250 : ℕ) : ℚ) := by
      rw [centerRa_1440_0]
      norm_num
    rw [hc, pyRound_natCast, Int.toNat_natCast]
  have hpm : pmChar (1/4) 360 = 'p' := by
    rw [pmChar, if_pos]
    rw [centerDec_quarter_360]
  have hdec : decDigits (1/4) 360 = padDigits 6 0 := by
    rw [decDigits]
    have hc : |centerDec (1/4) 360| * 10000 = ((0 : ℕ) : ℚ) := by
      rw [centerDec_quarter_360]
      norm_num
    rw [hc, pyRound_natCast, Int.toNat_natCast]
  rw [nameAt, hra, hpm, hdec]
  decide

theorem specEncode_origin : specEncode (1/8) 0 = "0001p000" := by
  rw [specEncode]
  have h1 : (1/8 : ℚ) * 10000 = ((1250 : ℕ) : ℚ) := by norm_num
  have h2 : |(0 : ℚ)| * 10000 = ((0 : ℕ) : ℚ) := by norm_num
  rw [h1, h2, pyRound_natCast, pyRound_natCast, Int.toNat_natCast, Int.toNat_natCast]
  rw [if_pos (le_refl 0)]
  decide

theorem specEncode_claimed : specEncode (1/8) (1/8) = "0001p001" := by
  rw [specEncode]
  have h1 : (1/8 : ℚ) * 10000 = ((1250 : ℕ) : ℚ) := by norm_num
  have h2 : |(1/8 : ℚ)| * 10000 = ((1250 : ℕ) : ℚ) := by
    rw [abs_of_nonneg (by norm_num : (0:ℚ) ≤ 1/8)]
    norm_num
  rw [h1, h2, pyRound_natCast, Int.toNat_natCast]
  rw [if_pos (by norm_num : (0:ℚ) ≤ 1/8)]
  decide

/-! ### Bounds used by the naming and location claims -/

theorem centerDec_abs_le {b : ℚ} {i : ℕ} (hb : 0 < b) (hi : i < nrowQ b) :
    |centerDec b i| ≤ 90 + b / 2 := by
  set argQ : ℚ := ((90 + b / 2) - (-90)) / b with hargQ
  have hargb : argQ * b = 180 + b / 2 := by
    rw [hargQ, div_mul_cancel₀]
    · ring
    · exact ne_of_gt hb
  have hnrow : ((nrowQ b : ℕ) : ℚ) < argQ + 1 := by
    have hc : (⌈argQ⌉ : ℚ) < argQ + 1 := Int.ceil_lt_add_one argQ
    have hcast : ((nrowQ b : ℕ) : ℤ) = ⌈argQ⌉ := nrowQ_cast hb
    have hcast' : ((nrowQ b : ℕ) : ℚ) = ((⌈argQ⌉ : ℤ) : ℚ) := by exact_mod_cast hcast
    rw [hcast']
    exact hc
  have hi1 : (i : ℚ) + 1 ≤ ((nrowQ b : ℕ) : ℚ) := by exact_mod_cast hi
  have hib : (i : ℚ) * b ≤ 180 + b / 2 := by
    have h2 : (i : ℚ) * b ≤ (((nrowQ b : ℕ) : ℚ) - 1) * b := by
      apply mul_le_mul_of_nonneg_right ?_ hb.le
      linarith
    have h3 : (((nrowQ b : ℕ) : ℚ) - 1) * b < argQ * b := by
      apply mul_lt_mul_of_pos_right ?_ hb
      linarith
    linarith [hargb]
  have hpos : (0 : ℚ) ≤ (i : ℚ) * b := mul_nonneg (Nat.cast_nonneg i) hb.le
  rw [abs_le, centerDec]
  constructor <;> nlinarith

/-- The located `(row, col)`, its floor formulas, its bounds, and the
uniqueness of the pair satisfying the floor characterizations. -/
theorem locate_core {b ra dec : ℚ} (hb : 0 < b) (hb180 : b < 180)
    (hlo : -90 ≤ dec) (hhi : dec ≤ 90)
    (hfr : Int.fract (((90 + b / 2) - (-90)) / b) ≠ 0) :
    rowcolPt b (ncolOf b) ra dec = some (rowOf b dec, colV b (ncolOf b) ra dec) ∧
    rowOf b dec = ⌊(dec + 90 + b / 2) / b⌋ ∧
    colV b (ncolOf b) ra dec =
      ⌊raMod ra / 360 * ((ncolOf b (rowOf b dec).toNat : ℕ) : ℚ)⌋ ∧
    0 ≤ rowOf b dec ∧ rowOf b dec < (nrowQ b : ℤ) ∧
    0 ≤ colV b (ncolOf b) ra dec ∧
    colV b (ncolOf b) ra dec < ((ncolOf b (rowOf b dec).toNat : ℕ) : ℤ) := by
  have hv1 : 0 ≤ rowOf b dec := rowOf_nonneg hb hlo
  have hv2 : rowOf b dec < (nrowQ b : ℤ) := rowOf_lt_nrowQ hb hhi hfr
  have hq0 : 0 ≤ (dec + 90 + b / 2) / b := div_nonneg (by linarith) hb.le
  have hn1 : 1 ≤ ncolOf b (rowOf b dec).toNat :=
    ncolOf_pos hb hb180 (by omega)
  have hrow : rowOf b dec = ⌊(dec + 90 + b / 2) / b⌋ := by
    rw [rowOf, truncQ_of_nonneg hq0]
  have hcq0 : 0 ≤ raMod ra / 360 * ((ncolOf b (rowOf b dec).toNat : ℕ) : ℚ) :=
    mul_nonneg (div_nonneg (raMod_nonneg ra) (by norm_num)) (Nat.cast_nonneg _)
  have hcol : colV b (ncolOf b) ra dec =
      ⌊raMod ra / 360 * ((ncolOf b (rowOf b dec).toNat : ℕ) : ℚ)⌋ := by
    rw [colV, colOf, truncQ_of_nonneg hcq0]
  exact ⟨rowcolPt_eq _ ra ⟨hv1, hv2⟩, hrow, hcol, hv1, hv2,
    colV_nonneg b (ncolOf b) ra dec, colV_lt ra hn1⟩

/-- The row-major flattening of per-row blocks, each labelled by the running
column total plus the in-row offset plus one, is exactly `1, 2, ...`. -/
theorem rowMajor_ids (f : ℕ → ℕ) : ∀ m : ℕ,
    ((List.range m).flatMap fun i => (List.range (f i)).map fun j =>
      ((List.range i).map f).sum + j + 1) =
    List.range' 1 (((List.range m).map f).sum) := by
  intro m
  induction m with
  | zero => rfl
  | succ m ih =>
    rw [List.range_succ, List.flatMap_append, ih]
    have hblock : ([m].flatMap fun i => (List.range (f i)).map fun j =>
        ((List.range i).map f).sum + j + 1) =
        List.range' (1 + 1 * ((List.range m).map f).sum) (f m) := by
      rw [List.flatMap_singleton]
      rw [List.range'_eq_map_range]
      apply List.map_congr_left
      intro j hj
      omega
    rw [hblock, List.range'_append]
    congr 1
    rw [List.map_append, List.sum_append]
    simp [Nat.add_comm]

/-! ### Small closed facts used to discharge witness hypotheses -/

theorem quarter_pos : (0 : ℚ) < 1/4 := by norm_num

theorem quarter_lt_180 : (1/4 : ℚ) < 180 := by norm_num

theorem quarter_le_19 : (1/4 : ℚ) ≤ 19 := by norm_num

theorem quarter_fract : Int.fract (((90 + (1/4 : ℚ) / 2) - (-90)) / (1/4)) ≠ 0 := by
  rw [Int.fract]
  norm_num

theorem neg90_le_zero : (-90 : ℚ) ≤ 0 := by norm_num

theorem zero_le_90 : (0 : ℚ) ≤ 90 := by norm_num

theorem zero_lt_nrowQ_quarter : 0 < nrowQ (1/4) := by
  rw [nrowQ_quarter]
  norm_num

theorem lt_nrowQ_quarter_720 : 720 < nrowQ (1/4) := by
  rw [nrowQ_quarter]
  norm_num

theorem ncolOf_quarter_0_pos : 0 < ncolOf (1/4) 0 := by
  rw [ncolOf_first]
  norm_num

theorem ncolOf_quarter_720_pos : 0 < ncolOf (1/4) 720 := by
  rw [ncolOf_quarter_720]
  norm_num

/-! ### Claim C1 (corrected) -/

/-- C1, counterexample: at the default brick size, `brickq` at the north
pole (`ra = 0`, `dec = 90`) does not return `1` — the `row == 0` override
only covers the south polar row, and row 720 gets the general formula. -/
theorem brickq_north_pole_refutes :
    brickqPt (1/4) (ncolOf (1/4)) 0 90 ≠ some 1 := by
  rw [brickq_quarter_north]
  decide

/-- C1, amended: for every brick size the south pole (`dec = -90`, any RA)
lands in row 0 and `brickq` returns `1`; at the north pole the polar
override does not apply — for the default brick size `brickq` returns `0`
there (row 720 is even and has a single column). -/
theorem brickq_pole_behavior (b ra : ℚ) (hb : 0 < b) :
    brickqPt b (ncolOf b) ra (-90) = some 1 ∧
    brickqPt (1/4) (ncolOf (1/4)) ra 90 = some 0 :=
  ⟨brickq_south b hb ra, brickq_quarter_north ra⟩

theorem brickq_pole_behavior_witness :
    brickqPt (1/4) (ncolOf (1/4)) 17 (-90) = some 1 ∧
    brickqPt (1/4) (ncolOf (1/4)) 17 90 = some 0 :=
  brickq_pole_behavior (1/4) 17 quarter_pos

/-! ### Claim C2 (confirmed) -/

/-- C2: on `dec ∈ [-90, 90]` and any RA the lookup computes
`row = ⌊(dec + 90 + bricksize/2)/bricksize⌋` and
`col = ⌊(ra mod 360)/360 * ncol_per_row[row]⌋`, the pair is in range for
every per-row table (`0 ≤ row < row_count`, `0 ≤ col < col_count[row]`),
and it is the unique integer pair satisfying the two floor
characterizations.  (The hypothesis `hfr` states that the row count is not
realized exactly at `dec = 90`, which holds for the default `1/4` grid.) -/
theorem locate_formula_unique (b ra dec : ℚ) (hb : 0 < b) (hb180 : b < 180)
    (hlo : -90 ≤ dec) (hhi : dec ≤ 90)
    (hfr : Int.fract (((90 + b / 2) - (-90)) / b) ≠ 0) :
    rowcolPt b (ncolOf b) ra dec = some (rowOf b dec, colV b (ncolOf b) ra dec) ∧
    rowOf b dec = ⌊(dec + 90 + b / 2) / b⌋ ∧
    colV b (ncolOf b) ra dec =
      ⌊raMod ra / 360 * ((ncolOf b (rowOf b dec).toNat : ℕ) : ℚ)⌋ ∧
    0 ≤ rowOf b dec ∧ rowOf b dec < (nrowQ b : ℤ) ∧
    0 ≤ colV b (ncolOf b) ra dec ∧
    colV b (ncolOf b) ra dec < ((ncolOf b (rowOf b dec).toNat : ℕ) : ℤ) ∧
    (∀ r : ℤ, (r : ℚ) ≤ (dec + 90 + b / 2) / b → (dec + 90 + b / 2) / b < r + 1 →
      r = rowOf b dec) ∧
    (∀ c : ℤ, (c : ℚ) ≤ raMod ra / 360 * ((ncolOf b (rowOf b dec).toNat : ℕ) : ℚ) →
      raMod ra / 360 * ((ncolOf b (rowOf b dec).toNat : ℕ) : ℚ) < c + 1 →
      c = colV b (ncolOf b) ra dec) := by
  obtain ⟨h1, h2, h3, h4, h5, h6, h7⟩ := locate_core hb hb180 hlo hhi hfr
  refine ⟨h1, h2, h3, h4, h5, h6, h7, ?_, ?_⟩
  · intro r hr1 hr2
    rw [h2]
    exact (Int.floor_eq_iff.mpr ⟨hr1, hr2⟩).symm
  · intro c hc1 hc2
    rw [h3]
    exact (Int.floor_eq_iff.mpr ⟨hc1, hc2⟩).symm

theorem locate_formula_unique_witness :
    rowcolPt (1/4) (ncolOf (1/4)) 0 0 =
      some (rowOf (1/4) 0, colV (1/4) (ncolOf (1/4)) 0 0) :=
  (locate_formula_unique (1/4) 0 0 quarter_pos quarter_lt_180 neg90_le_zero
    zero_le_90 quarter_fract).1

/-! ### Claim C3 (corrected) -/

/-- C3, counterexample: `dec = 90 + 1/16` is outside `[-90, 90]`, yet the
forward lookup does not hit an out-of-bounds access — it silently returns
the north polar brick's name. -/
theorem dec_out_of_range_silent_refutes :
    (90 : ℚ) < 90 + 1/16 ∧
    bricknamePt (1/4) (ncolOf (1/4)) 0 (90 + 1/16) = some "1800p900" :=
  ⟨by norm_num, brickname_quarter_silent⟩

/-- C3, amended: for the default grid a forward lookup raises an indexing
error exactly when `dec ≥ 90.125` or `dec ≤ -270.625`; every other
declination — including all of `(90, 90.125)` and `(-270.625, -90)`, which
lie outside `[-90, 90]` — silently returns a value, because `astype(int)`
truncates toward zero and Python's negative indices wrap around. -/
theorem dec_out_of_range_behavior (ra dec : ℚ) :
    bricknamePt (1/4) (ncolOf (1/4)) ra dec = none ↔
      (721/8 ≤ dec ∨ dec ≤ -2165/8) := by
  by_cases h : rowOf (1/4) dec < -((nrowQ (1/4) : ℕ) : ℤ) ∨
      ((nrowQ (1/4) : ℕ) : ℤ) ≤ rowOf (1/4) dec
  · have hnone : npGetF (nrowQ (1/4)) (ncolOf (1/4)) (rowOf (1/4) dec) = none :=
      (npGetF_none_iff _ _ _).mpr h
    have hmain : bricknamePt (1/4) (ncolOf (1/4)) ra dec = none := by
      rw [bricknamePt, rowcolPt, hnone]
      rfl
    rw [hmain]
    rw [nrowQ_quarter] at h
    apply iff_of_true rfl
    rcases h with h | h
    · right
      rw [← rowOf_quarter_lt_iff]
      exact_mod_cast h
    · left
      rw [← rowOf_quarter_ge_iff]
      exact_mod_cast h
  · obtain ⟨s, hs⟩ := bricknamePt_quarter_some ra dec h
    rw [hs]
    apply iff_of_false (Option.some_ne_none _)
    intro hrhs
    apply h
    rw [nrowQ_quarter]
    rcases hrhs with h1 | h1
    · right
      exact_mod_cast (rowOf_quarter_ge_iff dec).mpr h1
    · left
      exact_mod_cast (rowOf_quarter_lt_iff dec).mpr h1

/-! ### Claim C4 (confirmed) -/

/-- C4: on any valid location, `brickid` returns the total column count of
all rows strictly before the located row, plus the located column, plus
one; and, over the whole `bricksize = 1/4` grid in row-major order, these
values are exactly `1, 2, ..., total` with no repeats. -/
theorem brickid_prefix_sum_bijection :
    (∀ (b ra dec : ℚ), ValidRow b dec → brickidPt b ra dec = some (idVal b ra dec)) ∧
    ((List.range (nrowQ (1/4))).flatMap fun i =>
        (List.range (ncolOf (1/4) i)).map fun j =>
          ((List.range i).map (ncolOf (1/4))).sum + j + 1) =
      List.range' 1 (((List.range (nrowQ (1/4))).map (ncolOf (1/4))).sum) :=
  ⟨fun _ ra _ hv => brickidPt_eq ra hv, rowMajor_ids (ncolOf (1/4)) (nrowQ (1/4))⟩

theorem brickid_prefix_sum_bijection_witness :
    brickidPt (1/4) 0 0 = some (idVal (1/4) 0 0) :=
  brickid_prefix_sum_bijection.1 (1/4) 0 0 valid_quarter_0

/-! ### Claim C5 (confirmed) -/

/-- C5: every stored brick name is exactly the specification's pure
encoding of the brick's RA/Dec centers (4 leading digits of the 7-digit
rendering of `RA*10000`, the sign character, 3 leading digits of the
6-digit rendering of `|Dec|*10000`), it has 8 characters, and the two
formatted values indeed fit in 7 and 6 digits. -/
theorem brickname_encoding_spec (b : ℚ) (ncol : ℕ → ℕ) (i j : ℕ)
    (hb : 0 < b) (hb19 : b ≤ 19) (hi : i < nrowQ b) (hj : j < ncol i) :
    nameAt b ncol i j = specEncode (centerRa (ncol i) j) (centerDec b i) ∧
    (nameAt b ncol i j).length = 8 ∧
    (pyRound (centerRa (ncol i) j * 10000)).toNat < 10 ^ 7 ∧
    (pyRound (|centerDec b i| * 10000)).toNat < 10 ^ 6 := by
  refine ⟨nameAt_eq_specEncode b ncol i j, nameAt_length b ncol i j, ?_, ?_⟩
  · have h1 := centerRa_lt_360 hj
    have h2 := pyRound_le (centerRa (ncol i) j * 10000)
    have h3 : (pyRound (centerRa (ncol i) j * 10000) : ℤ) < 10 ^ 7 := by
      have hq : (pyRound (centerRa (ncol i) j * 10000) : ℚ) < ((10 ^ 7 : ℤ) : ℚ) := by
        push_cast
        nlinarith
      exact_mod_cast hq
    omega
  · have h1 := centerDec_abs_le hb hi
    have h2 := pyRound_le (|centerDec b i| * 10000)
    have h3 : (pyRound (|centerDec b i| * 10000) : ℤ) < 10 ^ 6 := by
      have hq : (pyRound (|centerDec b i| * 10000) : ℚ) < ((10 ^ 6 : ℤ) : ℚ) := by
        push_cast
        nlinarith
      exact_mod_cast hq
    omega

theorem brickname_encoding_spec_witness :
    nameAt (1/4) (fun _ => 1) 0 0 =
      specEncode (centerRa ((fun _ => 1) 0) 0) (centerDec (1/4) 0) :=
  (brickname_encoding_spec (1/4) (fun _ => 1) 0 0 quarter_pos quarter_le_19
    zero_lt_nrowQ_quarter (by decide)).1

/-! ### Claim C6 (corrected) -/

/-- C6, counterexample: with `bricksize = 1/20` the grid positions
`(1800, 0)` and `(1801, 0)` are distinct valid bricks, yet they receive the
same name (`0000p000`-style collision): the Dec centers `0` and `0.05`
truncate to the same 3 leading digits, and by symmetry of `cos` the two
rows get identical column counts, hence identical RA centers. -/
theorem brickname_collision_refutes :
    nameAt (1/20) (ncolOf (1/20)) 1800 0 = nameAt (1/20) (ncolOf (1/20)) 1801 0 ∧
    ((1800, 0) : ℕ × ℕ) ≠ (1801, 0) ∧
    1800 < nrowQ (1/20) ∧ 1801 < nrowQ (1/20) ∧
    0 < ncolOf (1/20) 1800 ∧ 0 < ncolOf (1/20) 1801 := by
  refine ⟨?_, by decide, by rw [nrowQ_twentieth]; norm_num,
    by rw [nrowQ_twentieth]; norm_num,
    ncolOf_pos (by norm_num) (by norm_num) (by rw [nrowQ_twentieth]; norm_num),
    ncolOf_pos (by norm_num) (by norm_num) (by rw [nrowQ_twentieth]; norm_num)⟩
  have hpm1 : pmChar (1/20) 1800 = 'p' := by
    rw [pmChar, if_pos]
    rw [centerDec]
    norm_num
  have hpm2 : pmChar (1/20) 1801 = 'p' := by
    rw [pmChar, if_pos]
    rw [centerDec]
    norm_num
  have hd1 : (decDigits (1/20) 1800).take 3 = ['0', '0', '0'] := by
    rw [decDigits]
    have hc : |centerDec (1/20) 1800| * 10000 = ((0 : ℕ) : ℚ) := by
      rw [centerDec]
      norm_num
    rw [hc, pyRound_natCast, Int.toNat_natCast]
    decide
  have hd2 : (decDigits (1/20) 1801).take 3 = ['0', '0', '0'] := by
    rw [decDigits]
    have hc : |centerDec (1/20) 1801| * 10000 = ((500 : ℕ) : ℚ) := by
      rw [centerDec]
      rw [show (-90 + ((1801 : ℕ) : ℚ) * (1/20)) = 1/20 by push_cast; norm_num]
      rw [abs_of_nonneg (by norm_num : (0 : ℚ) ≤ 1/20)]
      norm_num
    rw [hc, pyRound_natCast, Int.toNat_natCast]
    decide
  rw [nameAt, nameAt, ncolOf_twentieth_1801, hpm1, hpm2, hd1, hd2]

/-- C6, amended: for the default `bricksize = 1/4` grid, names are
collision-free — distinct valid positions have distinct names. -/
theorem bricknames_unique_quarter {i j k l : ℕ}
    (hi : i < nrowQ (1/4)) (hk : k < nrowQ (1/4))
    (hj : j < ncolOf (1/4) i) (hl : l < ncolOf (1/4) k)
    (hne : (i, j) ≠ (k, l)) :
    nameAt (1/4) (ncolOf (1/4)) i j ≠ nameAt (1/4) (ncolOf (1/4)) k l := by
  intro h
  rw [nrowQ_quarter] at hi hk
  apply nameAt_quarter_inj hi hk hj hl ?_ h
  intro hand
  exact hne (by rw [hand.1, hand.2])

theorem bricknames_unique_quarter_witness :
    nameAt (1/4) (ncolOf (1/4)) 0 0 ≠ nameAt (1/4) (ncolOf (1/4)) 720 0 :=
  bricknames_unique_quarter zero_lt_nrowQ_quarter lt_nrowQ_quarter_720
    ncolOf_quarter_0_pos ncolOf_quarter_720_pos (by decide)

/-! ### Claim C7 (confirmed) -/

/-- C7: the BRICKQ value `to_table` writes for a brick (row 0 forced to
`1`, otherwise `(col % 2) + (row % 2)*2`) is exactly what the forward
lookup `brickq` returns for any coordinate located in that brick. -/
theorem brickq_table_lookup_consistent (b : ℚ) (ncol : ℕ → ℕ) (ra dec : ℚ)
    (hv : ValidRow b dec) :
    brickqPt b ncol ra dec =
      some ((tableQ (rowOf b dec).toNat (colV b ncol ra dec).toNat : ℕ) : ℤ) := by
  rw [brickqPt_eq ncol ra hv, qVal, tableQ]
  have h0 := hv.1
  have hc := colV_nonneg b ncol ra dec
  by_cases h : rowOf b dec = 0
  · rw [if_pos h, if_pos (by omega)]
    norm_num
  · rw [if_neg h, if_neg (by omega)]
    congr 1
    omega

theorem brickq_table_lookup_consistent_witness :
    brickqPt (1/4) (ncolOf (1/4)) 0 0 =
      some ((tableQ (rowOf (1/4) 0).toNat
        (colV (1/4) (ncolOf (1/4)) 0 0).toNat : ℕ) : ℤ) :=
  brickq_table_lookup_consistent (1/4) (ncolOf (1/4)) 0 0 valid_quarter_0

/-! ### Claim C8 (corrected) -/

/-- C8, counterexample: `brickname(0, 0)` is not the encoding of a center
with Dec ≈ 0.125 — the name ends in `000` (Dec center `0`), not `001`. -/
theorem origin_name_dec_refutes :
    bricknamePt (1/4) (ncolOf (1/4)) 0 0 ≠ some (specEncode (1/8) (1/8)) := by
  rw [brickname_origin, specEncode_claimed]
  decide

/-- C8, amended: `(ra, dec) = (0, 0)` lands in row 360, column 0; that
row's Dec center is `0` (not `0.125`), its column count is 1440, the
column's RA center is `1/8 = 0.125`, and the returned name is the
deterministic encoding of the centers `(0.125, 0)`, namely `0001p000`. -/
theorem origin_brick_located :
    rowcolPt (1/4) (ncolOf (1/4)) 0 0 = some (360, 0) ∧
    centerDec (1/4) 360 = 0 ∧
    ncolOf (1/4) 360 = 1440 ∧
    centerRa 1440 0 = 1/8 ∧
    bricknamePt (1/4) (ncolOf (1/4)) 0 0 = some (specEncode (1/8) 0) ∧
    specEncode (1/8) 0 = "0001p000" :=
  ⟨rowcol_quarter_origin, centerDec_quarter_360, ncolOf_quarter_360, centerRa_1440_0,
    by rw [brickname_origin, specEncode_origin], specEncode_origin⟩

/-! ### The vectorized pipelines compute the per-point values elementwise -/

theorem rowColArr_eq (b : ℚ) (ncol : ℕ → ℕ) (ras decs : List ℚ)
    (hlen : ras.length = decs.length) (hv : ∀ d ∈ decs, ValidRow b d) :
    rowColArr b ncol (ras.map raMod) decs =
      some (decs.map (rowOf b),
        (ras.zip decs).map fun p => colV b ncol p.1 p.2) := by
  rw [rowColArr]
  have hns : (decs.map (rowOf b)).mapM (npGetF (nrowQ b) ncol) =
      some ((decs.map (rowOf b)).map fun r => ncol r.toNat) := by
    apply mapM_eq_map
    intro r hr
    obtain ⟨d, hd, rfl⟩ := List.mem_map.mp hr
    exact npGetF_eq_some _ _ _ (hv d hd).1 (hv d hd).2
  rw [hns, Option.some_bind]
  rw [List.map_map]
  rw [bcZipWith_eq_length _ _ _
    (by rw [List.length_map, List.length_map]; exact hlen)]
  rw [Option.map_some']
  congr 1
  congr 1
  rw [List.zipWith_map_left, List.zipWith_map_right, zipWith_eq_map_zip]
  rfl

theorem brickqArr_eq (b : ℚ) (ncol : ℕ → ℕ) (ras decs : List ℚ)
    (hlen : ras.length = decs.length) (hv : ∀ d ∈ decs, ValidRow b d) :
    brickqArr b ncol (ras.map raMod) decs =
      some ((ras.zip decs).map fun p => qVal b ncol p.1 p.2) := by
  rw [brickqArr, rowColArr_eq b ncol ras decs hlen hv, Option.some_bind]
  rw [bcZipWith_eq_length _ _ _
    (by rw [List.length_map, List.length_map, List.length_zip]; omega)]
  congr 1
  have hdecs : decs.map (rowOf b) = (ras.zip decs).map fun p => rowOf b p.2 := by
    conv_lhs => rw [← List.map_snd_zip ras decs (by omega)]
    rw [List.map_map]
    rfl
  rw [hdecs, List.zipWith_map_left, List.zipWith_map_right, List.zipWith_same]
  rfl

theorem rowsColsZip (b : ℚ) (ncol : ℕ → ℕ) (ras decs : List ℚ)
    (hlen : ras.length = decs.length) :
    (decs.map (rowOf b)).zip ((ras.zip decs).map fun p => colV b ncol p.1 p.2) =
      (ras.zip decs).map fun p => (rowOf b p.2, colV b ncol p.1 p.2) := by
  have hdecs : decs.map (rowOf b) = (ras.zip decs).map fun p => rowOf b p.2 := by
    conv_lhs => rw [← List.map_snd_zip ras decs (by omega)]
    rw [List.map_map]
    rfl
  rw [hdecs, List.zip_map']

theorem bricknameArr_eq (b : ℚ) (ncol : ℕ → ℕ) (ras decs : List ℚ)
    (hlen : ras.length = decs.length) (hv : ∀ d ∈ decs, ValidRow b d)
    (hn : ∀ d ∈ decs, 1 ≤ ncol (rowOf b d).toNat) :
    bricknameArr b ncol (ras.map raMod) decs =
      some ((ras.zip decs).map fun p => nameVal b ncol p.1 p.2) := by
  rw [bricknameArr, rowColArr_eq b ncol ras decs hlen hv, Option.some_bind]
  rw [rowsColsZip b ncol ras decs hlen]
  have hmap : (((ras.zip decs).map fun p =>
      (rowOf b p.2, colV b ncol p.1 p.2)).mapM fun q =>
        (npGetF (nrowQ b) (nameRow b ncol) q.1).bind fun row => npGetL row q.2) =
      some (((ras.zip decs).map fun p => (rowOf b p.2, colV b ncol p.1 p.2)).map
        fun q => nameAt b ncol q.1.toNat q.2.toNat) := by
    apply mapM_eq_map
    intro q hq
    obtain ⟨p, hp, rfl⟩ := List.mem_map.mp hq
    have hp2 : p.2 ∈ decs := (List.of_mem_zip hp).2
    have hvd := hv p.2 hp2
    have hnd := hn p.2 hp2
    rw [npGetF_eq_some _ _ _ hvd.1 hvd.2, Option.some_bind]
    rw [nameRow, npGetL_range_map _ _ _ (colV_nonneg b ncol p.1 p.2) (colV_lt p.1 hnd)]
  rw [hmap, Option.some_bind, List.map_map]
  rw [if_pos (by
    simp only [List.length_map, List.length_zip]
    omega)]
  rfl

theorem brickareaArr_eq (b : ℚ) (ncol : ℕ → ℕ) (ras decs : List ℚ)
    (hlen : ras.length = decs.length) (hv : ∀ d ∈ decs, ValidRow b d)
    (hn : ∀ d ∈ decs, 1 ≤ ncol (rowOf b d).toNat) :
    brickareaArr b ncol (ras.map raMod) decs =
      some ((ras.zip decs).map fun p => areaVal b ncol p.1 p.2) := by
  rw [brickareaArr, rowColArr_eq b ncol ras decs hlen hv, Option.some_bind]
  rw [rowsColsZip b ncol ras decs hlen]
  have hmap : (((ras.zip decs).map fun p =>
      (rowOf b p.2, colV b ncol p.1 p.2)).mapM fun q =>
        (npGetF (nrowQ b) (areaRow b ncol) q.1).bind fun row => npGetL row q.2) =
      some (((ras.zip decs).map fun p => (rowOf b p.2, colV b ncol p.1 p.2)).map
        fun q => areaAt b ncol q.1.toNat q.2.toNat) := by
    apply mapM_eq_map
    intro q hq
    obtain ⟨p, hp, rfl⟩ := List.mem_map.mp hq
    have hp2 : p.2 ∈ decs := (List.of_mem_zip hp).2
    have hvd := hv p.2 hp2
    have hnd := hn p.2 hp2
    rw [npGetF_eq_some _ _ _ hvd.1 hvd.2, Option.some_bind]
    rw [areaRow, npGetL_range_map _ _ _ (colV_nonneg b ncol p.1 p.2) (colV_lt p.1 hnd)]
  rw [hmap, Option.some_bind, List.map_map]
  rw [if_pos (by
    simp only [List.length_map, List.length_zip]
    omega)]
  rfl

theorem brickverticesArr_eq (b : ℚ) (ncol : ℕ → ℕ) (ras decs : List ℚ)
    (hlen : ras.length = decs.length) (hv : ∀ d ∈ decs, ValidRow b d)
    (hn : ∀ d ∈ decs, 1 ≤ ncol (rowOf b d).toNat) :
    brickverticesArr b ncol (ras.map raMod) decs =
      some ((ras.zip decs).map fun p => verticesVal b ncol p.1 p.2) := by
  rw [brickverticesArr, rowColArr_eq b ncol ras decs hlen hv, Option.some_bind]
  rw [rowsColsZip b ncol ras decs hlen]
  have hmap : (((ras.zip decs).map fun p =>
      (rowOf b p.2, colV b ncol p.1 p.2)).mapM fun q =>
        (npGetF (nrowQ b) (edgesRaRow ncol) q.1).bind fun eras =>
        (npGetL eras q.2).bind fun ramin =>
        (npGetL eras (q.2 + 1)).bind fun ramax =>
        (npGetF (nrowQ b + 1) (edgesDec b) q.1).bind fun decmin =>
        (npGetF (nrowQ b + 1) (edgesDec b) (q.1 + 1)).map fun decmax =>
        [(ramin, decmin), (ramax, decmin), (ramax, decmax), (ramin, decmax)]) =
      some (((ras.zip decs).map fun p => (rowOf b p.2, colV b ncol p.1 p.2)).map
        fun q => [(edgesRa (ncol q.1.toNat) q.2.toNat, edgesDec b q.1.toNat),
          (edgesRa (ncol q.1.toNat) (q.2.toNat + 1), edgesDec b q.1.toNat),
          (edgesRa (ncol q.1.toNat) (q.2.toNat + 1), edgesDec b (q.1.toNat + 1)),
          (edgesRa (ncol q.1.toNat) q.2.toNat, edgesDec b (q.1.toNat + 1))]) := by
    apply mapM_eq_map
    intro q hq
    obtain ⟨p, hp, rfl⟩ := List.mem_map.mp hq
    have hp2 : p.2 ∈ decs := (List.of_mem_zip hp).2
    have hvd := hv p.2 hp2
    have hnd := hn p.2 hp2
    have hc0 := colV_nonneg b ncol p.1 p.2
    have hc1 := colV_lt p.1 hnd
    have hr0 := hvd.1
    have hr1 := hvd.2
    have htn : (colV b ncol p.1 p.2 + 1).toNat = (colV b ncol p.1 p.2).toNat + 1 := by
      omega
    have hrn : (rowOf b p.2 + 1).toNat = (rowOf b p.2).toNat + 1 := by omega
    rw [npGetF_eq_some _ _ _ hr0 hr1, Option.some_bind]
    rw [edgesRaRow, npGetL_range_map _ _ _ hc0 (by push_cast; omega), Option.some_bind]
    rw [npGetL_range_map _ _ _ (by omega) (by push_cast; omega), Option.some_bind, htn]
    rw [npGetF_eq_some _ _ _ hr0 (by push_cast; omega), Option.some_bind]
    rw [npGetF_eq_some _ _ _ (by omega) (by push_cast; omega), hrn]
    rfl
  rw [hmap, List.map_map]
  rfl

theorem brickradecArr_eq (b : ℚ) (ncol : ℕ → ℕ) (ras decs : List ℚ)
    (hlen : ras.length = decs.length) (hv : ∀ d ∈ decs, ValidRow b d)
    (hn : ∀ d ∈ decs, 1 ≤ ncol (rowOf b d).toNat) :
    brickradecArr b ncol (ras.map raMod) decs =
      some ((ras.zip decs).map fun p => (radecVal b ncol p.1 p.2).1,
        (ras.zip decs).map fun p => (radecVal b ncol p.1 p.2).2) := by
  rw [brickradecArr, rowColArr_eq b ncol ras decs hlen hv, Option.some_bind]
  rw [rowsColsZip b ncol ras decs hlen]
  have hmap : (((ras.zip decs).map fun p =>
      (rowOf b p.2, colV b ncol p.1 p.2)).mapM fun q =>
        (npGetF (nrowQ b) (fun i => (List.range (ncol i)).map (centerRa (ncol i))) q.1).bind
          fun crow => npGetL crow q.2) =
      some (((ras.zip decs).map fun p => (rowOf b p.2, colV b ncol p.1 p.2)).map
        fun q => centerRa (ncol q.1.toNat) q.2.toNat) := by
    apply mapM_eq_map
    intro q hq
    obtain ⟨p, hp, rfl⟩ := List.mem_map.mp hq
    have hp2 : p.2 ∈ decs := (List.of_mem_zip hp).2
    have hvd := hv p.2 hp2
    have hnd := hn p.2 hp2
    rw [npGetF_eq_some _ _ _ hvd.1 hvd.2, Option.some_bind]
    rw [npGetL_range_map _ _ _ (colV_nonneg b ncol p.1 p.2) (colV_lt p.1 hnd)]
  rw [hmap, Option.some_bind]
  have hdecmap : (decs.map (rowOf b)).mapM (npGetF (nrowQ b) (centerDec b)) =
      some ((decs.map (rowOf b)).map fun r => centerDec b r.toNat) := by
    apply mapM_eq_map
    intro r hr
    obtain ⟨d, hd, rfl⟩ := List.mem_map.mp hr
    exact npGetF_eq_some _ _ _ (hv d hd).1 (hv d hd).2
  rw [hdecmap, Option.map_some', List.map_map, List.map_map]
  congr 2
  conv_lhs => rw [← List.map_snd_zip ras decs (by omega)]
  rw [List.map_map]
  rfl

theorem brickidArr_eq (b : ℚ) (ras decs : List ℚ)
    (hlen : ras.length = decs.length) (hv : ∀ d ∈ decs, ValidRow b d) :
    brickidArr b (ras.map raMod) decs =
      some ((ras.zip decs).map fun p => idVal b p.1 p.2) := by
  rw [brickidArr, rowColArr_eq b (ncolOf b) ras decs hlen hv, Option.some_bind]
  have hsums : (decs.map (rowOf b)).mapM (npGetL (ncolsumList b)) =
      some ((decs.map (rowOf b)).map fun r =>
        ((List.range r.toNat).map (ncolOf b)).sum) := by
    apply mapM_eq_map
    intro r hr
    obtain ⟨d, hd, rfl⟩ := List.mem_map.mp hr
    exact ncolsum_get (hv d hd).1 (hv d hd).2
  rw [hsums, Option.some_bind]
  rw [bcZipWith_eq_length _ _ _ (by
    simp only [List.length_map, List.length_zip]
    omega)]
  congr 1
  have hdecs : decs.map (rowOf b) = (ras.zip decs).map fun p => rowOf b p.2 := by
    conv_lhs => rw [← List.map_snd_zip ras decs (by omega)]
    rw [List.map_map]
    rfl
  rw [hdecs, List.map_map, List.zipWith_map_left, List.zipWith_map_right,
    List.zipWith_same]
  rfl

/-! ### Claim C9 (corrected) -/

/-- C9, counterexample: `brick_radec` violates the scalar-shape half of the
claim — its scalar branch performs length-1 gathers and never extracts
element 0, so a scalar input `(ra, dec) = (0, 0)` yields a pair of length-1
arrays `([0.125], [0.0])` (the containing brick's centers), not a
scalar-shaped pair. -/
theorem radec_scalar_shape_refutes :
    brickradecCall (1/4) (ncolOf (1/4)) (Sum.inl 0) (Sum.inl 0) =
      some ([1/8], [0]) := by
  have hv1 : ∀ d ∈ [(0 : ℚ)], ValidRow (1/4) d :=
    List.forall_mem_singleton.mpr valid_quarter_0
  have hn1 : ∀ d ∈ [(0 : ℚ)], 1 ≤ ncolOf (1/4) (rowOf (1/4) d).toNat := by
    intro d hd
    rw [List.mem_singleton] at hd
    subst hd
    rw [rowOf_quarter_0]
    show 1 ≤ ncolOf (1/4) 360
    rw [ncolOf_quarter_360]
    norm_num
  show brickradecArr (1/4) (ncolOf (1/4)) ([0].map raMod) [0] = _
  rw [brickradecArr_eq (1/4) (ncolOf (1/4)) [0] [0] rfl hv1 hn1]
  have hr : radecVal (1/4) (ncolOf (1/4)) 0 0 = (1/8, 0) := by
    rw [radecVal, colV, raMod_zero, rowOf_quarter_0]
    show (centerRa (ncolOf (1/4) 360) (colOf (ncolOf (1/4) 360) 0).toNat,
      centerDec (1/4) 360) = ((1/8 : ℚ), (0 : ℚ))
    rw [ncolOf_quarter_360, colOf_zero]
    show (centerRa 1440 0, centerDec (1/4) 360) = ((1/8 : ℚ), (0 : ℚ))
    rw [centerRa_1440_0, centerDec_quarter_360]
  simp only [List.zip_cons_cons, List.zip_nil_right, List.map_cons, List.map_nil, hr]

/-- C9, amended: brickname, brickid, brickq, brickarea and brickvertices
return, for matched coordinate arrays of length `n`, an array of length `n`
(`(ras.zip decs).length = ras.length`) whose `i`-th entry is the per-point
result of the `i`-th pair, in input order, and for scalar coordinates the
single scalar-shaped result; `brick_radec` preserves length and order on
arrays in the same way, but on scalar input it returns a pair of length-1
arrays holding the per-point centers — not a scalar-shaped result. -/
theorem queries_shape_order (b : ℚ) (hb : 0 < b) (hb180 : b < 180)
    (ras decs : List ℚ) (hlen : ras.length = decs.length)
    (hv : ∀ d ∈ decs, ValidRow b d) :
    (brickqCall b (ncolOf b) (Sum.inr ras) (Sum.inr decs) =
        some (Sum.inr ((ras.zip decs).map fun p => qVal b (ncolOf b) p.1 p.2))) ∧
    (bricknameCall b (ncolOf b) (Sum.inr ras) (Sum.inr decs) =
        some (Sum.inr ((ras.zip decs).map fun p => nameVal b (ncolOf b) p.1 p.2))) ∧
    (brickidCall b (Sum.inr ras) (Sum.inr decs) =
        some (Sum.inr ((ras.zip decs).map fun p => idVal b p.1 p.2))) ∧
    (brickareaCall b (ncolOf b) (Sum.inr ras) (Sum.inr decs) =
        some (Sum.inr ((ras.zip decs).map fun p => areaVal b (ncolOf b) p.1 p.2))) ∧
    (brickverticesCall b (ncolOf b) (Sum.inr ras) (Sum.inr decs) =
        some (Sum.inr ((ras.zip decs).map fun p => verticesVal b (ncolOf b) p.1 p.2))) ∧
    (brickradecCall b (ncolOf b) (Sum.inr ras) (Sum.inr decs) =
        some ((ras.zip decs).map fun p => (radecVal b (ncolOf b) p.1 p.2).1,
          (ras.zip decs).map fun p => (radecVal b (ncolOf b) p.1 p.2).2)) ∧
    ((ras.zip decs).length = ras.length) ∧
    (∀ ra dec : ℚ, ValidRow b dec →
      brickqCall b (ncolOf b) (Sum.inl ra) (Sum.inl dec) =
          some (Sum.inl (qVal b (ncolOf b) ra dec)) ∧
      bricknameCall b (ncolOf b) (Sum.inl ra) (Sum.inl dec) =
          some (Sum.inl (nameVal b (ncolOf b) ra dec)) ∧
      brickidCall b (Sum.inl ra) (Sum.inl dec) = some (Sum.inl (idVal b ra dec)) ∧
      brickareaCall b (ncolOf b) (Sum.inl ra) (Sum.inl dec) =
          some (Sum.inl (areaVal b (ncolOf b) ra dec)) ∧
      brickverticesCall b (ncolOf b) (Sum.inl ra) (Sum.inl dec) =
          some (Sum.inl (verticesVal b (ncolOf b) ra dec)) ∧
      brickradecCall b (ncolOf b) (Sum.inl ra) (Sum.inl dec) =
          some ([(radecVal b (ncolOf b) ra dec).1],
            [(radecVal b (ncolOf b) ra dec).2])) := by
  have hn : ∀ d ∈ decs, 1 ≤ ncolOf b (rowOf b d).toNat := by
    intro d hd
    obtain ⟨h1, h2⟩ := hv d hd
    exact ncolOf_pos hb hb180 (by omega)
  refine ⟨?_, ?_, ?_, ?_, ?_, ?_, ?_, ?_⟩
  · rw [brickqCall]
    show (brickqArr b (ncolOf b) (ras.map raMod) decs).bind _ = _
    rw [brickqArr_eq b (ncolOf b) ras decs hlen hv, Option.some_bind]
    rfl
  · rw [bricknameCall]
    show (bricknameArr b (ncolOf b) (ras.map raMod) decs).bind _ = _
    rw [bricknameArr_eq b (ncolOf b) ras decs hlen hv hn, Option.some_bind]
    rfl
  · rw [brickidCall]
    show (brickidArr b (ras.map raMod) decs).bind _ = _
    rw [brickidArr_eq b ras decs hlen hv, Option.some_bind]
    rfl
  · rw [brickareaCall]
    show (brickareaArr b (ncolOf b) (ras.map raMod) decs).bind _ = _
    rw [brickareaArr_eq b (ncolOf b) ras decs hlen hv hn, Option.some_bind]
    rfl
  · rw [brickverticesCall]
    show (brickverticesArr b (ncolOf b) (ras.map raMod) decs).bind _ = _
    rw [brickverticesArr_eq b (ncolOf b) ras decs hlen hv hn, Option.some_bind]
    rfl
  · show brickradecArr b (ncolOf b) (ras.map raMod) decs = _
    exact brickradecArr_eq b (ncolOf b) ras decs hlen hv hn
  · rw [List.length_zip]
    omega
  · intro ra dec hvd
    have hv1 : ∀ d ∈ [dec], ValidRow b d := List.forall_mem_singleton.mpr hvd
    have hn1 : ∀ d ∈ [dec], 1 ≤ ncolOf b (rowOf b d).toNat :=
      List.forall_mem_singleton.mpr (ncolOf_pos hb hb180 (by
        obtain ⟨h1, h2⟩ := hvd
        omega))
    refine ⟨?_, ?_, ?_, ?_, ?_, ?_⟩
    · rw [brickqCall]
      show (brickqArr b (ncolOf b) ([ra].map raMod) [dec]).bind _ = _
      rw [brickqArr_eq b (ncolOf b) [ra] [dec] rfl hv1, Option.some_bind]
      rfl
    · rw [bricknameCall]
      show (bricknameArr b (ncolOf b) ([ra].map raMod) [dec]).bind _ = _
      rw [bricknameArr_eq b (ncolOf b) [ra] [dec] rfl hv1 hn1, Option.some_bind]
      rfl
    · rw [brickidCall]
      show (brickidArr b ([ra].map raMod) [dec]).bind _ = _
      rw [brickidArr_eq b [ra] [dec] rfl hv1, Option.some_bind]
      rfl
    · rw [brickareaCall]
      show (brickareaArr b (ncolOf b) ([ra].map raMod) [dec]).bind _ = _
      rw [brickareaArr_eq b (ncolOf b) [ra] [dec] rfl hv1 hn1, Option.some_bind]
      rfl
    · rw [brickverticesCall]
      show (brickverticesArr b (ncolOf b) ([ra].map raMod) [dec]).bind _ = _
      rw [brickverticesArr_eq b (ncolOf b) [ra] [dec] rfl hv1 hn1, Option.some_bind]
      rfl
    · show brickradecArr b (ncolOf b) ([ra].map raMod) [dec] = _
      rw [brickradecArr_eq b (ncolOf b) [ra] [dec] rfl hv1 hn1]
      rfl

theorem valid_quarter_list : ∀ d ∈ [(0 : ℚ), 90], ValidRow (1/4) d := by
  intro d hd
  rcases List.mem_cons.mp hd with h | h
  · exact h ▸ valid_quarter_0
  · rw [List.mem_singleton] at h
    exact h ▸ valid_quarter_90

/-- Witness for C9 at `bricksize = 1/4` with the array input
`ras = [0, 180]`, `decs = [0, 90]`. -/
theorem queries_shape_order_witness :
    brickqCall (1/4) (ncolOf (1/4)) (Sum.inr [0, 180]) (Sum.inr [(0 : ℚ), 90]) =
      some (Sum.inr (([(0 : ℚ), 180].zip [(0 : ℚ), 90]).map fun p =>
        qVal (1/4) (ncolOf (1/4)) p.1 p.2)) :=
  (queries_shape_order (1/4) quarter_pos quarter_lt_180 [0, 180] [0, 90] rfl
    valid_quarter_list).1

/-! ### Claim C10 (confirmed) -/

theorem rowColArr_scalarRa (b : ℚ) (ncol : ℕ → ℕ) (ra : ℚ) (decs : List ℚ)
    (hv : ∀ x ∈ decs, ValidRow b x) :
    rowColArr b ncol [raMod ra] decs =
      some (decs.map (rowOf b), decs.map fun x => colV b ncol ra x) := by
  rw [rowColArr]
  have hns : (decs.map (rowOf b)).mapM (npGetF (nrowQ b) ncol) =
      some ((decs.map (rowOf b)).map fun r => ncol r.toNat) := by
    apply mapM_eq_map
    intro r hr
    obtain ⟨x, hx, rfl⟩ := List.mem_map.mp hr
    exact npGetF_eq_some _ _ _ (hv x hx).1 (hv x hx).2
  rw [hns, Option.some_bind, bcZipWith_single, Option.map_some']
  congr 1
  congr 1
  rw [List.map_map, List.map_map]
  rfl

/-- C10: the scalar-versus-array shape of every query result is decided
solely by whether the `ra` argument is a scalar (`np.isscalar(ra)`); the
shape of `dec` is ignored.  For a scalar `ra` and a `dec` array
`d :: ds` (in particular of length `> 1`), `brickid` returns a single
scalar — the result for the first dec entry only, equal to the fully
scalar call at `(ra, d)` — silently discarding the remaining dec values. -/
theorem brickid_scalar_ra_discards_dec (b : ℚ) (ra d : ℚ) (ds : List ℚ)
    (hv : ∀ x ∈ d :: ds, ValidRow b x) :
    brickidCall b (Sum.inl ra) (Sum.inr (d :: ds)) = some (Sum.inl (idVal b ra d)) ∧
    brickidCall b (Sum.inl ra) (Sum.inr (d :: ds)) =
      brickidCall b (Sum.inl ra) (Sum.inl d) := by
  have hvd : ValidRow b d := hv d (List.mem_cons_self d ds)
  have key : ∀ es : List ℚ, (∀ x ∈ d :: es, ValidRow b x) →
      brickidCall b (Sum.inl ra) (Sum.inr (d :: es)) =
        some (Sum.inl (idVal b ra d)) := by
    intro es hve
    rw [brickidCall]
    show (brickidArr b [raMod ra] (d :: es)).bind (scalarize (Sum.inl ra)) = _
    rw [brickidArr, rowColArr_scalarRa b (ncolOf b) ra (d :: es) hve,
      Option.some_bind]
    have hsums : ((d :: es).map (rowOf b)).mapM (npGetL (ncolsumList b)) =
        some (((d :: es).map (rowOf b)).map fun r =>
          ((List.range r.toNat).map (ncolOf b)).sum) := by
      apply mapM_eq_map
      intro r hr
      obtain ⟨x, hx, rfl⟩ := List.mem_map.mp hr
      exact ncolsum_get (hve x hx).1 (hve x hx).2
    rw [hsums, Option.some_bind]
    rw [bcZipWith_eq_length _ _ _ (by
      rw [List.length_map, List.length_map, List.length_map])]
    rw [Option.some_bind]
    rfl
  refine ⟨key ds hv, ?_⟩
  rw [key ds hv]
  exact (key [] (List.forall_mem_cons.mpr ⟨hvd, by intro x hx; cases hx⟩)).symm

/-- Witness for C10 at `bricksize = 1/4`, `ra = 0` (scalar) and the dec
array `[0, 90]` of length 2: the call returns the scalar result for
`dec = 0` only. -/
theorem brickid_scalar_ra_discards_dec_witness :
    brickidCall (1/4) (Sum.inl 0) (Sum.inr [(0 : ℚ), 90]) =
      some (Sum.inl (idVal (1/4) 0 0)) :=
  (brickid_scalar_ra_discards_dec (1/4) 0 0 [90] valid_quarter_list).1

end Brick
